import Mathlib

/-!
ShuffleGenerator: lazy Fisher-Yates shuffle of `[0, n)`

A shallow embedding of `src/main.cpp` (class `ShuffleGenerator`) and proofs of
its specification.

Modelling conventions.

* `uint32_t` values are natural numbers; every operation that can leave the
  range `[0, 2^32)` in C++ is followed by an explicit `% 2^32`.
* `int` values are integers; a conversion from `uint32_t` to `int` is the
  two's complement reinterpretation `toInt32`, and a conversion from `int` to
  `uint32_t` is the reduction modulo `2^32`, `toUInt32`.
* `vector<uint32_t>` is `List Nat`; `v[i]` is `List.getD v i 0` and
  `v[i] = x` is `List.set v i x`.  The class invariant `indices.size() == n`
  (lemma `Inv.length_eq`) together with `cursor <= index < n` keeps every
  access in bounds.
* The function-local statics `x, y, z` of `xorshf96` are an explicit `Rng`
  value that is threaded through every call.  `getNextValueFrom` takes the
  word source as a parameter, so that statements can range over every stream
  of random words; the program itself is the instance
  `getNextValue = getNextValueFrom xorshf96`.
* A call that has no defined result in C++ (signed overflow, or constructing a
  vector of negative length) returns `none`.  `getNextValuesWrapFrom` is the
  same method with the signed subtraction wrapping around; the two agree
  whenever `end - start` fits `int` (lemma `getNextValuesWrapFrom_eq_of_fits`).
-/

/-! ## Machine integers -/

/-- The number of `uint32_t` values, `2^32`. -/
def wordSize : Nat := 4294967296

/-- Conversion of a `uint32_t` value to `int` (two's complement). -/
def toInt32 (u : Nat) : Int :=
  if u % wordSize < 2147483648 then ((u % wordSize : Nat) : Int)
  else ((u % wordSize : Nat) : Int) - 4294967296

/-- Conversion of an `int` value to `uint32_t` (reduction modulo `2^32`). -/
def toUInt32 (i : Int) : Nat := (i % 4294967296).toNat

/-- Whether an integer is representable as `int`. -/
def fitsInt32 (i : Int) : Bool := decide (-2147483648 ≤ i) && decide (i ≤ 2147483647)

/-! ## The pseudo-random bit source -/

/-- The three static registers `x, y, z` of `xorshf96`. -/
structure Rng where
  x : Nat
  y : Nat
  z : Nat
  deriving DecidableEq, Repr

/-- The initial values of the static registers. -/
def Rng.seed : Rng := ⟨123456789, 362436069, 521288629⟩

/-- One call of `xorshf96`: the returned word and the new registers. -/
def xorshf96 (s : Rng) : Nat × Rng :=
  let x1 := s.x ^^^ ((s.x <<< 16) % wordSize)
  let x2 := x1 ^^^ (x1 >>> 5)
  let x3 := x2 ^^^ ((x2 <<< 1) % wordSize)
  let t := x3
  let x := s.y
  let y := s.z
  let z := t ^^^ x ^^^ y
  (z, ⟨x, y, z⟩)

/-! ## The generator -/

/-- The fields of the class `ShuffleGenerator`. -/
structure ShuffleGenerator where
  indices : List Nat
  current : Nat
  n : Nat
  deriving DecidableEq, Repr

namespace ShuffleGenerator

/-- Constant `dval`: `uint32_t(-1)`, the largest `uint32_t`. -/
def dval : Nat := 4294967295

/-- The constructor `ShuffleGenerator(uint32_t size)`. -/
def create (size : Nat) : ShuffleGenerator :=
  { indices := List.replicate size dval, current := 0, n := size }

/-- The expression `r % (n - current) + current` of `getNextValue`, for the
drawn word `r`. -/
def pickIndex (g : ShuffleGenerator) (r : Nat) : Nat :=
  (r % (g.n - g.current) + g.current) % wordSize

/-- Method `getNextValue`, drawing its random word from `draw`: the returned
value, the generator afterwards and the word source afterwards. -/
def getNextValueFrom {σ : Type} (draw : σ → Nat × σ) (g : ShuffleGenerator) (s : σ) :
    Nat × ShuffleGenerator × σ :=
  if g.current ≥ g.n then
    (dval, g, s)
  else
    let rs := draw s
    let index := pickIndex g rs.1
    let a := g.indices.getD g.current 0
    let b := g.indices.getD index 0
    let a := if a = dval then g.current else a
    let b := if b = dval then index else b
    let indices1 := g.indices.set g.current b
    let indices2 := indices1.set index a
    (b, { indices := indices2, current := (g.current + 1) % wordSize, n := g.n }, rs.2)

/-- Method `getNextValue` as the program runs it, on `xorshf96`. -/
def getNextValue (g : ShuffleGenerator) (s : Rng) : Nat × ShuffleGenerator × Rng :=
  getNextValueFrom xorshf96 g s

/-- The body of the loop `for (i = 0; i < k; i++) gen.getNextValue()` of the
demonstrations: `k` successive calls, with the values they return in order. -/
def getNextValueTimes {σ : Type} (draw : σ → Nat × σ) :
    Nat → ShuffleGenerator → σ → List Nat × ShuffleGenerator × σ
  | 0, g, s => ([], g, s)
  | k + 1, g, s =>
    let r := getNextValueFrom draw g s
    let rest := getNextValueTimes draw k r.2.1 r.2.2
    (r.1 :: rest.1, rest.2)

/-- Local `start` of `getNextValues`: `int start = current`. -/
def batchStart (g : ShuffleGenerator) : Int := toInt32 g.current

/-- Local `end` of `getNextValues`:
`int end = std::min(current + chunkSize, n)`, the sum and the minimum being
taken in `uint32_t`. -/
def batchEnd (g : ShuffleGenerator) (chunkSize : Int) : Int :=
  toInt32 (min ((g.current + toUInt32 chunkSize) % wordSize) g.n)

/-- The loop `for (int i = start; i < end; i++) values[i - start] = getNextValue()`
with `k` iterations left and loop variable `i`. -/
def fillValues {σ : Type} (draw : σ → Nat × σ) (start : Int) :
    Nat → Int → List Nat → ShuffleGenerator → σ → List Nat × ShuffleGenerator × σ
  | 0, _, values, g, s => (values, g, s)
  | k + 1, i, values, g, s =>
    let r := getNextValueFrom draw g s
    fillValues draw start k (i + 1) (values.set (i - start).toNat r.1) r.2.1 r.2.2

/-- Method `getNextValues(int chunkSize)`, drawing from `draw`.  The result is
`none` when `end - start` overflows `int` or when the length `size` of the
result vector is negative. -/
def getNextValuesFrom {σ : Type} (draw : σ → Nat × σ) (chunkSize : Int)
    (g : ShuffleGenerator) (s : σ) : Option (List Nat × ShuffleGenerator × σ) :=
  let start := batchStart g
  let stop := batchEnd g chunkSize
  let size := stop - start
  if fitsInt32 size = false then none
  else if size < 0 then none
  else
    let values := List.replicate size.toNat 0
    some (fillValues draw start (stop - start).toNat start values g s)

/-- Method `getNextValues` as the program runs it, on `xorshf96`. -/
def getNextValues (chunkSize : Int) (g : ShuffleGenerator) (s : Rng) :
    Option (List Nat × ShuffleGenerator × Rng) :=
  getNextValuesFrom xorshf96 chunkSize g s

/-- Method `getNextValues(int chunkSize)` when the subtraction `end - start`
wraps around in two's complement instead of being undefined on overflow, as it
does in the code g++ emits.  The loop condition `i < end` is not affected;
the result is `none` only when the length `size` of the result vector is
negative. -/
def getNextValuesWrapFrom {σ : Type} (draw : σ → Nat × σ) (chunkSize : Int)
    (g : ShuffleGenerator) (s : σ) : Option (List Nat × ShuffleGenerator × σ) :=
  let start := batchStart g
  let stop := batchEnd g chunkSize
  let size := toInt32 (toUInt32 (stop - start))
  if size < 0 then none
  else
    let values := List.replicate size.toNat 0
    some (fillValues draw start (stop - start).toNat start values g s)

/-- The value a slot stands for: an unset slot (`dval`) stands for its own
index. -/
def logical (g : ShuffleGenerator) (i : Nat) : Nat :=
  if g.indices.getD i 0 = dval then i else g.indices.getD i 0

end ShuffleGenerator

open ShuffleGenerator

/-! ## Auxiliary notions for the proofs -/

/-- The exchange of the positions `c` and `p`. -/
def exchange (c p i : Nat) : Nat := if i = p then c else if i = c then p else i

/-- The generator after an active step that picked position `p`. -/
def stepped (g : ShuffleGenerator) (p : Nat) : ShuffleGenerator :=
  { indices := (g.indices.set g.current (logical g p)).set p (logical g g.current),
    current := g.current + 1, n := g.n }

/-- A caller issuing `getNextValues(k1)`, `getNextValues(k2)`, ... in turn: the
sequences returned, in order, and the final state; `none` as soon as one call
has no result. -/
def getNextValuesSeq {σ : Type} (draw : σ → Nat × σ) :
    List Int → ShuffleGenerator → σ → Option (List (List Nat) × ShuffleGenerator × σ)
  | [], g, s => some ([], g, s)
  | k :: ks, g, s =>
    match getNextValuesFrom draw k g s with
    | none => none
    | some r =>
      match getNextValuesSeq draw ks r.2.1 r.2.2 with
      | none => none
      | some rest => some (r.1 :: rest.1, rest.2)

/-- A request of a caller: `getNextValue()` or `getNextValues(chunkSize)`. -/
inductive Call where
  | next : Call
  | batch (chunkSize : Int) : Call
  deriving DecidableEq, Repr

/-- What a request returns: a value, or a sequence of values. -/
inductive Reply where
  | value (v : Nat) : Reply
  | values (vs : List Nat) : Reply
  deriving DecidableEq, Repr

/-- A caller issuing a fixed sequence of requests: the replies in order and the
final state; `none` as soon as one request has no result. -/
def runCalls {σ : Type} (draw : σ → Nat × σ) :
    List Call → ShuffleGenerator → σ → Option (List Reply × ShuffleGenerator × σ)
  | [], g, s => some ([], g, s)
  | Call.next :: cs, g, s =>
    let r := getNextValueFrom draw g s
    match runCalls draw cs r.2.1 r.2.2 with
    | none => none
    | some rest => some (Reply.value r.1 :: rest.1, rest.2)
  | Call.batch k :: cs, g, s =>
    match getNextValuesFrom draw k g s with
    | none => none
    | some r =>
      match runCalls draw cs r.2.1 r.2.2 with
      | none => none
      | some rest => some (Reply.values r.1 :: rest.1, rest.2)

/-- A word source that makes `getNextValue` pick prescribed positions.  Its
state is the number of words handed out so far and the picks still to come; at
position `i` with next pick `p` it hands out the word `p - i`, for which
`p - i mod (n - i) + i = p` when `i <= p < n`. -/
def pickSource (st : Nat × List Nat) : Nat × (Nat × List Nat) :=
  (st.2.headD 0 - st.1, (st.1 + 1, st.2.tail))

/-- The values `n` calls of `getNextValue` on `ShuffleGenerator(n)` return when
the picks are `p`. -/
def valuesOfPicks (n : Nat) (p : List Nat) : List Nat :=
  (getNextValueTimes pickSource n (create n) (0, p)).1

/-- Pick sequences `(p_0, ..., p_{n-1})` with `p_i` in `[i, n)`. -/
def ValidPicks (n : Nat) (p : List Nat) : Prop :=
  p.length = n ∧ ∀ i, i < p.length → i ≤ p.getD i 0 ∧ p.getD i 0 < n

/-- Pick sequences for a generator whose cursor is `c`: `n - c` picks, the
`j`-th in `[c + j, n)`. -/
def ValidPicksFrom (n : Nat) : Nat → List Nat → Prop
  | c, [] => c = n
  | c, p :: q => c ≤ p ∧ p < n ∧ ValidPicksFrom n (c + 1) q

/-- The number of `uint32_t` words `r` for which `getNextValue` picks
position `p`. -/
def pickCount (g : ShuffleGenerator) (p : Nat) : Nat :=
  Nat.count (fun r => pickIndex g r = p) wordSize

/-- The statement `x ^= x << a` of `xorshf96`, on a `uint32_t`. -/
def shiftXorLeft (a x : Nat) : Nat := x ^^^ ((x <<< a) % wordSize)

/-- The statement `x ^= x >> a` of `xorshf96`, on a `uint32_t`. -/
def shiftXorRight (a x : Nat) : Nat := x ^^^ (x >>> a)

/-- The registers after one call of `xorshf96`. -/
def Rng.next (s : Rng) : Rng := (xorshf96 s).2

/-- Registers that hold `uint32_t` words. -/
def Rng.Valid (s : Rng) : Prop := s.x < wordSize ∧ s.y < wordSize ∧ s.z < wordSize

/-- The all-zero registers. -/
def Rng.zero : Rng := ⟨0, 0, 0⟩

/-- The registers before one call of `xorshf96`, computed from the registers
after it: `y` and `z` are the new `x` and `y`, the temporary `t` is the xor of
the three new registers, and the three shift-xor statements are undone in
reverse order. -/
def Rng.prev (s : Rng) : Rng :=
  let t := s.z ^^^ s.x ^^^ s.y
  let u := shiftXorLeft 1 (shiftXorLeft 2 (shiftXorLeft 4 (shiftXorLeft 8 (shiftXorLeft 16 t))))
  let v := shiftXorRight 5 (shiftXorRight 10 (shiftXorRight 20 u))
  ⟨shiftXorLeft 16 v, s.x, s.y⟩

/-! ## The class invariant -/

/-- The invariant of a generator over `[0, n)`: the backing array has `n`
slots, the cursor is at most `n`, every slot below the cursor has been
written, and the logical view is an injection of `[0, n)` into itself. -/
structure ShuffleGenerator.Inv (n : Nat) (g : ShuffleGenerator) : Prop where
  n_eq : g.n = n
  length_eq : g.indices.length = n
  current_le : g.current ≤ n
  written : ∀ i, i < g.current → g.indices.getD i 0 ≠ dval
  logical_lt : ∀ i, i < n → logical g i < n
  logical_inj : ∀ i j, i < n → j < n → logical g i = logical g j → i = j

/-- The states a generator over `[0, n)` can be in: the state the constructor
builds, and every state a call of `getNextValue` leaves, whatever the random
word `r` it drew. -/
inductive ShuffleGenerator.Reachable (n : Nat) : ShuffleGenerator → Prop
  | init : ShuffleGenerator.Reachable n (create n)
  | next (g : ShuffleGenerator) (r : Nat) :
      ShuffleGenerator.Reachable n g →
      ShuffleGenerator.Reachable n
        (getNextValueFrom (fun u : Unit => (r, u)) g ()).2.1

/-! ## Basic facts -/

theorem getD_set_zero (l : List Nat) (i j a : Nat) :
    (l.set i a).getD j 0 = if i = j ∧ i < l.length then a else l.getD j 0 := by
  simp only [List.getD_eq_getElem?_getD, List.getElem?_set]
  by_cases h : i = j
  · subst h
    by_cases h2 : i < l.length
    · simp [h2]
    · simp [h2, List.getElem?_eq_none (Nat.le_of_not_lt h2)]
  · simp [h]

theorem getD_replicate_dval (n i : Nat) (h : i < n) :
    (List.replicate n dval).getD i 0 = dval := by
  simp [List.getD_eq_getElem?_getD, List.getElem?_replicate, h]

theorem pickIndex_bounds (g : ShuffleGenerator) (r : Nat) (hn : g.n < wordSize)
    (hc : g.current < g.n) :
    pickIndex g r = r % (g.n - g.current) + g.current ∧
      g.current ≤ pickIndex g r ∧ pickIndex g r < g.n := by
  have hpos : 0 < g.n - g.current := by omega
  have hlt := Nat.mod_lt r hpos
  have h1 : pickIndex g r = r % (g.n - g.current) + g.current := by
    unfold pickIndex
    exact Nat.mod_eq_of_lt (by omega)
  rw [h1]
  omega

/-- An exhausted generator answers `dval` and changes nothing. -/
theorem getNextValueFrom_exhausted {σ : Type} (draw : σ → Nat × σ) (g : ShuffleGenerator)
    (s : σ) (h : g.n ≤ g.current) : getNextValueFrom draw g s = (dval, g, s) := by
  unfold getNextValueFrom
  simp [h]

/-- The active branch of `getNextValue`, in terms of the logical view. -/
theorem getNextValueFrom_active {σ : Type} (draw : σ → Nat × σ) (g : ShuffleGenerator)
    (s : σ) (hn : g.n < wordSize) (hc : g.current < g.n) :
    getNextValueFrom draw g s =
      (logical g (pickIndex g (draw s).1),
        { indices := (g.indices.set g.current (logical g (pickIndex g (draw s).1))).set
            (pickIndex g (draw s).1) (logical g g.current),
          current := g.current + 1, n := g.n },
        (draw s).2) := by
  have hw : (g.current + 1) % wordSize = g.current + 1 := Nat.mod_eq_of_lt (by omega)
  unfold getNextValueFrom logical
  simp only [ge_iff_le, not_le.mpr hc, if_false, hw]

theorem logical_create (n i : Nat) (h : i < n) : logical (create n) i = i := by
  unfold logical create
  simp only [getD_replicate_dval n i h, if_true]

theorem Inv_create (n : Nat) : Inv n (create n) where
  n_eq := rfl
  length_eq := by simp [create]
  current_le := Nat.zero_le _
  written := by intro i hi; simp [create] at hi
  logical_lt := by
    intro i hi
    rw [logical_create n i hi]
    exact hi
  logical_inj := by
    intro i j hi hj h
    rwa [logical_create n i hi, logical_create n j hj] at h

/-! ## One step of the lazy Fisher-Yates shuffle -/

theorem exchange_lt (c p i n : Nat) (hc : c < n) (hp : p < n) (hi : i < n) :
    exchange c p i < n := by
  unfold exchange
  split_ifs <;> assumption

theorem exchange_inj (c p i j : Nat) (h : exchange c p i = exchange c p j) : i = j := by
  unfold exchange at h
  split_ifs at h <;> omega

theorem exchange_invol (c p i : Nat) : exchange c p (exchange c p i) = i := by
  unfold exchange
  split_ifs <;> omega

theorem exchange_ge (c p i : Nat) (hcp : c ≤ p) (hi : c ≤ i) : c ≤ exchange c p i := by
  unfold exchange
  split_ifs <;> omega

theorem exchange_below (c p i : Nat) (hcp : c ≤ p) (hi : i < c) : exchange c p i = i := by
  unfold exchange
  split_ifs <;> omega

/-- The physical slots after a step that picked `p`. -/
theorem stepped_getD (g : ShuffleGenerator) (n p : Nat) (hinv : Inv n g) (hc : g.current < n)
    (hp : p < n) (i : Nat) :
    (stepped g p).indices.getD i 0 =
      if i = p then logical g g.current
      else if i = g.current then logical g p else g.indices.getD i 0 := by
  have hlen := hinv.length_eq
  unfold stepped
  simp only [getD_set_zero, List.length_set, hlen, hp, hc, and_true]
  by_cases h1 : i = p
  · simp [h1]
  · by_cases h2 : i = g.current
    · have h3 : ¬ p = g.current := fun h => h1 (h2.trans h.symm)
      have h4 : ¬ g.current = p := fun h => h3 h.symm
      simp [h2, h3, h4]
    · have h1' : ¬ p = i := fun h => h1 h.symm
      have h2' : ¬ g.current = i := fun h => h2 h.symm
      simp [h1, h2, h1', h2']

/-- A step exchanges the logical values of the cursor and of the pick. -/
theorem logical_stepped (g : ShuffleGenerator) (n p : Nat) (hinv : Inv n g)
    (hn : n < wordSize) (hc : g.current < n) (hp : p < n) (i : Nat) :
    logical (stepped g p) i = logical g (exchange g.current p i) := by
  have hA := hinv.logical_lt g.current hc
  have hB := hinv.logical_lt p hp
  have hA' : logical g g.current ≠ dval := by unfold dval; unfold wordSize at hn; omega
  have hB' : logical g p ≠ dval := by unfold dval; unfold wordSize at hn; omega
  have hget := stepped_getD g n p hinv hc hp i
  unfold exchange
  by_cases h1 : i = p
  · rw [if_pos h1] at hget ⊢
    rw [logical, hget, if_neg hA']
  · rw [if_neg h1] at hget ⊢
    by_cases h2 : i = g.current
    · rw [if_pos h2] at hget ⊢
      rw [logical, hget, if_neg hB']
    · rw [if_neg h2] at hget ⊢
      rw [logical, hget, logical]

/-- A step keeps the invariant. -/
theorem Inv_stepped (g : ShuffleGenerator) (n p : Nat) (hinv : Inv n g)
    (hn : n < wordSize) (hc : g.current < n) (hp : p < n) :
    Inv n (stepped g p) where
  n_eq := hinv.n_eq
  length_eq := by simp [stepped, hinv.length_eq]
  current_le := by simp only [stepped]; omega
  written := by
    intro i hi
    have hA := hinv.logical_lt g.current hc
    have hB := hinv.logical_lt p hp
    have hA' : logical g g.current ≠ dval := by unfold dval; unfold wordSize at hn; omega
    have hB' : logical g p ≠ dval := by unfold dval; unfold wordSize at hn; omega
    rw [stepped_getD g n p hinv hc hp i]
    have hi' : i < g.current + 1 := hi
    split_ifs with h1 h2
    · exact hA'
    · exact hB'
    · exact hinv.written i (by omega)
  logical_lt := by
    intro i hi
    rw [logical_stepped g n p hinv hn hc hp i]
    exact hinv.logical_lt _ (exchange_lt _ _ _ _ hc hp hi)
  logical_inj := by
    intro i j hi hj h
    rw [logical_stepped g n p hinv hn hc hp i, logical_stepped g n p hinv hn hc hp j] at h
    exact exchange_inj _ _ _ _
      (hinv.logical_inj _ _ (exchange_lt _ _ _ _ hc hp hi) (exchange_lt _ _ _ _ hc hp hj) h)

/-- An active call of `getNextValue` returns the logical value of the pick and
leaves the generator `stepped` at the pick. -/
theorem getNextValueFrom_stepped {σ : Type} (draw : σ → Nat × σ) (g : ShuffleGenerator)
    (s : σ) (hn : g.n < wordSize) (hc : g.current < g.n) :
    getNextValueFrom draw g s =
      (logical g (pickIndex g (draw s).1), stepped g (pickIndex g (draw s).1), (draw s).2) :=
  getNextValueFrom_active draw g s hn hc

/-- The slot at the cursor holds the returned value after a step, and the slots
below the cursor are untouched. -/
theorem stepped_below (g : ShuffleGenerator) (n p : Nat) (hinv : Inv n g)
    (hc : g.current < n) (hcp : g.current ≤ p) (hp : p < n) :
    (stepped g p).indices.getD g.current 0 = logical g p ∧
      ∀ i, i < g.current → (stepped g p).indices.getD i 0 = g.indices.getD i 0 := by
  constructor
  · rw [stepped_getD g n p hinv hc hp]
    by_cases h : g.current = p
    · rw [if_pos h, h]
    · rw [if_neg h, if_pos rfl]
  · intro i hi
    rw [stepped_getD g n p hinv hc hp, if_neg (by omega), if_neg (by omega)]

/-! ## Successive calls -/

theorem getNextValueTimes_succ {σ : Type} (draw : σ → Nat × σ) (k : Nat)
    (g : ShuffleGenerator) (s : σ) :
    getNextValueTimes draw (k + 1) g s =
      ((getNextValueFrom draw g s).1 ::
          (getNextValueTimes draw k (getNextValueFrom draw g s).2.1
            (getNextValueFrom draw g s).2.2).1,
        (getNextValueTimes draw k (getNextValueFrom draw g s).2.1
          (getNextValueFrom draw g s).2.2).2) := rfl

/-- What `k` successive calls do while values remain: the invariant is kept,
the cursor advances by `k`, the slots below the old cursor are untouched, and
the values returned are the slots `[cursor, cursor + k)` of the final array. -/
theorem getNextValueTimes_spec {σ : Type} (draw : σ → Nat × σ) (n : Nat) (hn : n < wordSize) :
    ∀ (k : Nat) (g : ShuffleGenerator) (s : σ), Inv n g → g.current + k ≤ n →
      Inv n (getNextValueTimes draw k g s).2.1 ∧
      (getNextValueTimes draw k g s).2.1.current = g.current + k ∧
      (∀ i, i < g.current →
        (getNextValueTimes draw k g s).2.1.indices.getD i 0 = g.indices.getD i 0) ∧
      (getNextValueTimes draw k g s).1 =
        (List.range' g.current k).map
          (fun i => (getNextValueTimes draw k g s).2.1.indices.getD i 0) := by
  intro k
  induction k with
  | zero =>
    intro g s hinv _
    exact ⟨hinv, rfl, fun _ _ => rfl, rfl⟩
  | succ k ih =>
    intro g s hinv hk
    have hc : g.current < n := by omega
    have hgn : g.n < wordSize := by rw [hinv.n_eq]; exact hn
    have hgc : g.current < g.n := by rw [hinv.n_eq]; exact hc
    have hpb := pickIndex_bounds g (draw s).1 hgn hgc
    rw [hinv.n_eq] at hpb
    have hstep := getNextValueFrom_stepped draw g s hgn hgc
    have hinv1 := Inv_stepped g n _ hinv hn hc hpb.2.2
    have hpre := stepped_below g n _ hinv hc hpb.2.1 hpb.2.2
    rw [getNextValueTimes_succ, hstep]
    simp only []
    have hcur1 : (stepped g (pickIndex g (draw s).1)).current = g.current + 1 := rfl
    obtain ⟨h1, h2, h3, h4⟩ :=
      ih (stepped g (pickIndex g (draw s).1)) (draw s).2 hinv1 (by rw [hcur1]; omega)
    refine ⟨h1, ?_, ?_, ?_⟩
    · rw [h2, hcur1]; omega
    · intro i hi
      rw [h3 i (by rw [hcur1]; omega)]
      exact hpre.2 i hi
    · rw [List.range'_succ, List.map_cons, ← hcur1, ← h4,
        h3 g.current (by rw [hcur1]; omega), hpre.1]

/-- Below the cursor the physical slot is the logical value. -/
theorem physical_eq_logical (g : ShuffleGenerator) (n i : Nat) (hinv : Inv n g)
    (hi : i < g.current) : g.indices.getD i 0 = logical g i := by
  unfold logical
  rw [if_neg (hinv.written i hi)]

/-- While values remain, the values returned by `k` calls are the logical
values of the final state at the positions `[cursor, cursor + k)`. -/
theorem getNextValueTimes_logical {σ : Type} (draw : σ → Nat × σ) (n : Nat)
    (hn : n < wordSize) (k : Nat) (g : ShuffleGenerator) (s : σ) (hinv : Inv n g)
    (hk : g.current + k ≤ n) :
    (getNextValueTimes draw k g s).1 =
      (List.range' g.current k).map (logical (getNextValueTimes draw k g s).2.1) := by
  obtain ⟨h1, h2, _, h4⟩ := getNextValueTimes_spec draw n hn k g s hinv hk
  rw [h4]
  apply List.map_congr_left
  intro i hi
  rw [List.mem_range'_1] at hi
  exact physical_eq_logical _ n i h1 (by rw [h2]; omega)

/-- The logical values of distinct positions below `n` are distinct. -/
theorem ShuffleGenerator.Inv.nodup_map_logical {n : Nat} {g : ShuffleGenerator} (hinv : Inv n g)
    (l : List Nat) (hl : l.Nodup) (hlt : ∀ i ∈ l, i < n) : (l.map (logical g)).Nodup :=
  List.Nodup.map_on (fun i hi j hj h => hinv.logical_inj i j (hlt i hi) (hlt j hj) h) hl

/-- A list of `n` distinct numbers below `n` is a permutation of `[0, n)`. -/
theorem perm_range_of_nodup (l : List Nat) (n : Nat) (hl : l.Nodup) (hlen : l.length = n)
    (hlt : ∀ v ∈ l, v < n) : l.Perm (List.range n) := by
  apply List.Subperm.perm_of_length_le
  · apply List.subperm_of_subset hl
    intro v hv
    exact List.mem_range.mpr (hlt v hv)
  · rw [List.length_range, hlen]

/-- The logical view of a generator over `[0, n)` is a permutation of `[0, n)`. -/
theorem ShuffleGenerator.Inv.logical_perm {n : Nat} {g : ShuffleGenerator} (hinv : Inv n g) :
    ((List.range n).map (logical g)).Perm (List.range n) := by
  apply perm_range_of_nodup
  · exact hinv.nodup_map_logical _ (List.nodup_range n) (fun i hi => List.mem_range.mp hi)
  · simp
  · intro v hv
    obtain ⟨i, hi, rfl⟩ := List.mem_map.mp hv
    exact hinv.logical_lt i (List.mem_range.mp hi)

/-- Calls compose: `a + b` calls are `a` calls followed by `b` calls. -/
theorem getNextValueTimes_add {σ : Type} (draw : σ → Nat × σ) (a b : Nat) :
    ∀ (g : ShuffleGenerator) (s : σ),
      getNextValueTimes draw (a + b) g s =
        ((getNextValueTimes draw a g s).1 ++
            (getNextValueTimes draw b (getNextValueTimes draw a g s).2.1
              (getNextValueTimes draw a g s).2.2).1,
          (getNextValueTimes draw b (getNextValueTimes draw a g s).2.1
            (getNextValueTimes draw a g s).2.2).2) := by
  induction a with
  | zero =>
    intro g s
    simp [getNextValueTimes]
  | succ a ih =>
    intro g s
    rw [show a + 1 + b = (a + b) + 1 by omega, getNextValueTimes_succ, getNextValueTimes_succ, ih]
    simp

theorem getNextValueTimes_length {σ : Type} (draw : σ → Nat × σ) (k : Nat) :
    ∀ (g : ShuffleGenerator) (s : σ), (getNextValueTimes draw k g s).1.length = k := by
  induction k with
  | zero => intro g s; rfl
  | succ k ih => intro g s; rw [getNextValueTimes_succ]; simp [ih]

/-- Calls on an exhausted generator return `dval` and change nothing. -/
theorem getNextValueTimes_exhausted {σ : Type} (draw : σ → Nat × σ) (g : ShuffleGenerator)
    (s : σ) (h : g.n ≤ g.current) (k : Nat) :
    getNextValueTimes draw k g s = (List.replicate k dval, g, s) := by
  induction k with
  | zero => rfl
  | succ k ih =>
    rw [getNextValueTimes_succ, getNextValueFrom_exhausted draw g s h]
    simp only [ih, List.replicate_succ]

/-- The values returned while values remain are pairwise distinct, below `n`,
and different from the logical values of the positions not yet consumed. -/
theorem getNextValueTimes_nodup {σ : Type} (draw : σ → Nat × σ) (n : Nat)
    (hn : n < wordSize) (k : Nat) (g : ShuffleGenerator) (s : σ) (hinv : Inv n g)
    (hk : g.current + k ≤ n) :
    (getNextValueTimes draw k g s).1.Nodup ∧
      ∀ v ∈ (getNextValueTimes draw k g s).1, v < n := by
  obtain ⟨h1, _, _, _⟩ := getNextValueTimes_spec draw n hn k g s hinv hk
  have hlt : ∀ i ∈ List.range' g.current k, i < n := by
    intro i hi
    rw [List.mem_range'_1] at hi
    omega
  rw [getNextValueTimes_logical draw n hn k g s hinv hk]
  refine ⟨h1.nodup_map_logical _ (List.nodup_range' _ _) hlt, ?_⟩
  intro v hv
  obtain ⟨i, hi, rfl⟩ := List.mem_map.mp hv
  exact h1.logical_lt i (hlt i hi)

/-! ## Batches -/

theorem take_succ_set (values : List Nat) (j v : Nat) (hj : j < values.length) :
    (values.set j v).take (j + 1) = values.take j ++ [v] := by
  rw [List.set_eq_take_cons_drop v hj, List.take_append_eq_append_take]
  simp [List.take_take, Nat.min_eq_left (Nat.le_of_lt hj)]

/-- The loop of `getNextValues` stores the values of `k` successive calls in
the slots `[j, j + k)` of the result vector, where `j = i - start`. -/
theorem fillValues_eq {σ : Type} (draw : σ → Nat × σ) (start : Int) :
    ∀ (k j : Nat) (values : List Nat) (g : ShuffleGenerator) (s : σ),
      j + k ≤ values.length →
      fillValues draw start k (start + j) values g s =
        (values.take j ++ (getNextValueTimes draw k g s).1 ++ values.drop (j + k),
          (getNextValueTimes draw k g s).2) := by
  intro k
  induction k with
  | zero =>
    intro j values g s _
    simp [fillValues, getNextValueTimes]
  | succ k ih =>
    intro j values g s hj
    have hidx : (start + (j : Int) - start).toNat = j := by simp
    have hnext : start + (j : Int) + 1 = start + ((j + 1 : Nat) : Int) := by push_cast; ring
    rw [fillValues, hidx, hnext, ih (j + 1) _ _ _ (by rw [List.length_set]; omega),
      getNextValueTimes_succ, take_succ_set values j _ (by omega),
      List.drop_set_of_lt _ _ (by omega)]
    simp only [List.append_assoc, List.singleton_append, Nat.add_assoc, Nat.add_comm 1 k]

theorem toInt32_of_lt (u : Nat) (h : u < 2147483648) : toInt32 u = (u : Int) := by
  have h1 : u % wordSize = u := Nat.mod_eq_of_lt (by unfold wordSize; omega)
  unfold toInt32
  rw [h1, if_pos h]

theorem toUInt32_of_nonneg (i : Int) (h0 : 0 ≤ i) (h1 : i < 4294967296) :
    toUInt32 i = i.toNat := by
  unfold toUInt32
  rw [Int.emod_eq_of_lt h0 h1]

/-- When the `uint32_t` value of `end` is below `2^31` and `chunkSize` is not
negative, the locals `start` and `end` of `getNextValues` have their
mathematical values. -/
theorem batch_bounds (g : ShuffleGenerator) (chunkSize : Int)
    (hend : min (g.current + chunkSize.toNat) g.n < 2147483648)
    (hc : g.current ≤ g.n) (h0 : 0 ≤ chunkSize) (h1 : chunkSize < 2147483648) :
    batchStart g = (g.current : Int) ∧
      batchEnd g chunkSize = ((g.current + min chunkSize.toNat (g.n - g.current) : Nat) : Int) := by
  have hcur : g.current < 2147483648 := by omega
  constructor
  · exact toInt32_of_lt _ hcur
  · unfold batchEnd
    rw [toUInt32_of_nonneg chunkSize h0 (by omega)]
    have hsum : (g.current + chunkSize.toNat) % wordSize = g.current + chunkSize.toNat :=
      Nat.mod_eq_of_lt (by unfold wordSize; omega)
    rw [hsum, toInt32_of_lt _ hend]
    congr 1
    omega

/-- Under the same conditions `getNextValues(chunkSize)` is
`min(chunkSize, n - cursor)` successive calls of `getNextValue`. -/
theorem getNextValuesFrom_eq_of_end {σ : Type} (draw : σ → Nat × σ) (g : ShuffleGenerator)
    (s : σ) (chunkSize : Int) (hend : min (g.current + chunkSize.toNat) g.n < 2147483648)
    (hc : g.current ≤ g.n) (h0 : 0 ≤ chunkSize) (h1 : chunkSize < 2147483648) :
    getNextValuesFrom draw chunkSize g s =
      some (getNextValueTimes draw (min chunkSize.toNat (g.n - g.current)) g s) := by
  obtain ⟨hs, he⟩ := batch_bounds g chunkSize hend hc h0 h1
  have hsize : batchEnd g chunkSize - batchStart g =
      ((min chunkSize.toNat (g.n - g.current) : Nat) : Int) := by
    rw [hs, he]; push_cast; ring
  have hfit : fitsInt32 ((min chunkSize.toNat (g.n - g.current) : Nat) : Int) = true := by
    unfold fitsInt32
    simp only [Bool.and_eq_true, decide_eq_true_eq]
    omega
  unfold getNextValuesFrom
  simp only [hsize, hfit, Int.toNat_ofNat]
  rw [if_neg (by simp), if_neg (by omega)]
  have hfill := fillValues_eq draw (batchStart g) (min chunkSize.toNat (g.n - g.current)) 0
    (List.replicate (min chunkSize.toNat (g.n - g.current)) 0) g s (by simp)
  simp only [Nat.cast_zero, add_zero, List.take_zero, List.nil_append, zero_add] at hfill
  rw [hfill]
  simp [List.drop_eq_nil_of_le]

/-- For a generator of `int` size and a non-negative `chunkSize`,
`getNextValues(chunkSize)` is `min(chunkSize, n - cursor)` successive calls of
`getNextValue`. -/
theorem getNextValuesFrom_eq {σ : Type} (draw : σ → Nat × σ) (g : ShuffleGenerator) (s : σ)
    (chunkSize : Int) (hn : g.n < 2147483648) (hc : g.current ≤ g.n) (h0 : 0 ≤ chunkSize)
    (h1 : chunkSize < 2147483648) :
    getNextValuesFrom draw chunkSize g s =
      some (getNextValueTimes draw (min chunkSize.toNat (g.n - g.current)) g s) :=
  getNextValuesFrom_eq_of_end draw g s chunkSize (by omega) hc h0 h1

/-! ## Reachable states -/

/-- The generator after a call depends on the source only through the word
drawn. -/
theorem getNextValueFrom_word {σ : Type} (draw : σ → Nat × σ) (g : ShuffleGenerator) (s : σ) :
    (getNextValueFrom draw g s).2.1 =
      (getNextValueFrom (fun u : Unit => ((draw s).1, u)) g ()).2.1 := by
  unfold getNextValueFrom
  split <;> rfl

theorem Reachable_getNextValueFrom {σ : Type} (draw : σ → Nat × σ) (n : Nat)
    (g : ShuffleGenerator) (s : σ) (h : Reachable n g) :
    Reachable n (getNextValueFrom draw g s).2.1 := by
  rw [getNextValueFrom_word]
  exact Reachable.next g _ h

theorem Reachable_getNextValueTimes {σ : Type} (draw : σ → Nat × σ) (n : Nat) (k : Nat) :
    ∀ (g : ShuffleGenerator) (s : σ), Reachable n g →
      Reachable n (getNextValueTimes draw k g s).2.1 := by
  induction k with
  | zero => intro g s h; exact h
  | succ k ih =>
    intro g s h
    rw [getNextValueTimes_succ]
    exact ih _ _ (Reachable_getNextValueFrom draw n g s h)

/-- Every reachable state of a generator of `uint32_t` size satisfies the
invariant. -/
theorem Reachable_Inv (n : Nat) (hn : n < wordSize) (g : ShuffleGenerator)
    (h : Reachable n g) : Inv n g := by
  induction h with
  | init => exact Inv_create n
  | next g r _ ih =>
    by_cases hc : g.current < g.n
    · rw [getNextValueFrom_stepped _ g () (by rw [ih.n_eq]; exact hn) hc]
      have hpb := pickIndex_bounds g r (by rw [ih.n_eq]; exact hn) hc
      rw [ih.n_eq] at hpb hc
      exact Inv_stepped g n _ ih hn hc hpb.2.2
    · rw [getNextValueFrom_exhausted _ g () (by omega)]
      exact ih

/-! ## The claims -/

/-- C1 (permutation property).  For every size `n` that is a `uint32_t` and
every source of random words, the `n` values returned by `n` calls of
`getNextValue` on a fresh `ShuffleGenerator(n)` are pairwise distinct, each is
below `n`, and the list of them is a permutation of `[0, n)`. -/
theorem permutation_property {σ : Type} (draw : σ → Nat × σ) (s : σ) (n : Nat)
    (hn : n < wordSize) :
    (getNextValueTimes draw n (create n) s).1.length = n ∧
      (getNextValueTimes draw n (create n) s).1.Nodup ∧
      (∀ v ∈ (getNextValueTimes draw n (create n) s).1, v < n) ∧
      (getNextValueTimes draw n (create n) s).1.Perm (List.range n) := by
  have hnd := getNextValueTimes_nodup draw n hn n (create n) s (Inv_create n)
    (by simp [create])
  have hlen := getNextValueTimes_length draw n (create n) s
  exact ⟨hlen, hnd.1, hnd.2, perm_range_of_nodup _ n hnd.1 hlen hnd.2⟩

/-- Witness for C1: `ShuffleGenerator(7)`, the size of the second
demonstration, on `xorshf96` started from its seed registers. -/
theorem permutation_property_witness :
    7 < wordSize ∧
      (getNextValueTimes xorshf96 7 (create 7) Rng.seed).1.Perm (List.range 7) :=
  ⟨by decide, (permutation_property xorshf96 Rng.seed 7 (by decide)).2.2.2⟩

/-- C2 (exhaustion property).  Whenever `cursor >= n`, `getNextValue` returns
`dval = 2^32 - 1` and changes nothing: the generator (cursor and backing array)
and the state of the word source, in particular the registers of `xorshf96`,
are the same afterwards; so are they after any number `k` of further calls,
which all return `dval`.  After `n` calls on a fresh `ShuffleGenerator(n)` the
cursor is `n`, so the generator is in that situation. -/
theorem exhaustion_property {σ : Type} (draw : σ → Nat × σ) (g : ShuffleGenerator) (s : σ)
    (r : Rng) (k n : Nat) (s0 : σ) (h : g.n ≤ g.current) (hn : n < wordSize) :
    getNextValueFrom draw g s = (dval, g, s) ∧
      getNextValue g r = (dval, g, r) ∧
      getNextValueTimes draw k g s = (List.replicate k dval, g, s) ∧
      dval = 2 ^ 32 - 1 ∧
      (getNextValueTimes draw n (create n) s0).2.1.n = n ∧
      (getNextValueTimes draw n (create n) s0).2.1.current = n := by
  obtain ⟨h1, h2, _, _⟩ :=
    getNextValueTimes_spec draw n hn n (create n) s0 (Inv_create n) (by simp [create])
  refine ⟨getNextValueFrom_exhausted draw g s h, getNextValueFrom_exhausted xorshf96 g r h,
    getNextValueTimes_exhausted draw g s h k, by decide, h1.n_eq, ?_⟩
  rw [h2]
  simp [create]

/-- Witness for C2: `ShuffleGenerator(7)` after the seven values it returns
from the seed registers, asked three more times. -/
theorem exhaustion_property_witness :
    (7 ≤ 7 ∧ 7 < wordSize) ∧
      getNextValueTimes xorshf96 3 ⟨[5, 1, 2, 3, 0, 6, 4], 7, 7⟩ ⟨2996772340, 86133791, 3042881956⟩ =
        ([dval, dval, dval], ⟨[5, 1, 2, 3, 0, 6, 4], 7, 7⟩, ⟨2996772340, 86133791, 3042881956⟩) :=
  ⟨⟨by decide, by decide⟩,
    (exhaustion_property xorshf96 ⟨[5, 1, 2, 3, 0, 6, 4], 7, 7⟩ ⟨2996772340, 86133791, 3042881956⟩
      Rng.seed 3 7 Rng.seed (by decide) (by decide)).2.2.1⟩

/-- C6 (zero-size property).  On `ShuffleGenerator(0)`, `getNextValue` returns
`dval` at once, and `getNextValues(chunkSize)` returns the empty sequence for
every `chunkSize`, positive, zero or negative; both leave the generator and
the word source unchanged. -/
theorem zero_size_property {σ : Type} (draw : σ → Nat × σ) (s : σ) (chunkSize : Int) :
    getNextValueFrom draw (create 0) s = (dval, create 0, s) ∧
      getNextValuesFrom draw chunkSize (create 0) s = some ([], create 0, s) := by
  constructor
  · exact getNextValueFrom_exhausted draw (create 0) s (Nat.le_refl 0)
  · have hs : batchStart (create 0) = 0 := by decide
    have he : batchEnd (create 0) chunkSize = 0 := by
      unfold batchEnd
      have : (create 0).n = 0 := rfl
      rw [this, Nat.min_zero]
      decide
    unfold getNextValuesFrom
    simp only [hs, he]
    rfl

/-- At `n = cursor = 2^32 - 1` the sum `current + 1` wraps to `0`, `start` is
`-1`, and `getNextValues(1)` returns the one-element sequence `[dval]`. -/
theorem getNextValuesFrom_one_at_max {σ : Type} (draw : σ → Nat × σ) (g : ShuffleGenerator)
    (s : σ) (hc : g.current = 4294967295) (hn : g.n = 4294967295) :
    getNextValuesFrom draw 1 g s = some ([dval], g, s) := by
  have hs : batchStart g = -1 := by unfold batchStart; rw [hc]; decide
  have he : batchEnd g 1 = 0 := by unfold batchEnd; rw [hc, hn]; decide
  have hex := getNextValueFrom_exhausted draw g s (by omega)
  unfold getNextValuesFrom
  simp only [hs, he]
  have h1 : (0 : Int) - -1 = 1 := by decide
  rw [h1, if_neg (by decide), if_neg (by decide)]
  have h2 : (1 : Int).toNat = 1 := by decide
  rw [h2]
  simp only [fillValues, hex]
  have h3 : ((-1 : Int) - -1).toNat = 0 := by decide
  rw [h3]
  rfl

/-- The state after `k <= n` calls on a fresh generator has cursor `k`. -/
theorem getNextValueTimes_fresh_state {σ : Type} (draw : σ → Nat × σ) (s : σ) (n k : Nat)
    (hn : n < wordSize) (hk : k ≤ n) :
    Inv n (getNextValueTimes draw k (create n) s).2.1 ∧
      (getNextValueTimes draw k (create n) s).2.1.current = k := by
  have h0 : (create n).current + k ≤ n := by
    rw [show (create n).current = 0 from rfl, Nat.zero_add]
    exact hk
  obtain ⟨h1, h2, _, _⟩ := getNextValueTimes_spec draw n hn k (create n) s (Inv_create n) h0
  refine ⟨h1, ?_⟩
  rw [h2, show (create n).current = 0 from rfl, Nat.zero_add]

/-- The `n` values of a fresh generator are distinct and a permutation of
`[0, n)`. -/
theorem getNextValueTimes_fresh {σ : Type} (draw : σ → Nat × σ) (s : σ) (n : Nat)
    (hn : n < wordSize) :
    (getNextValueTimes draw n (create n) s).1.Nodup ∧
      (getNextValueTimes draw n (create n) s).1.Perm (List.range n) := by
  have hnd := getNextValueTimes_nodup draw n hn n (create n) s (Inv_create n)
    (by simp [create])
  exact ⟨hnd.1, perm_range_of_nodup _ n hnd.1 (getNextValueTimes_length draw n _ s) hnd.2⟩

/-- Two's complement wrap-around leaves an `int` value as it is. -/
theorem toInt32_toUInt32_of_fits (i : Int) (h : fitsInt32 i = true) :
    toInt32 (toUInt32 i) = i := by
  unfold fitsInt32 at h
  simp only [Bool.and_eq_true, decide_eq_true_eq] at h
  unfold toInt32 toUInt32 wordSize
  split_ifs <;> omega

/-- When `end - start` fits `int`, wrapping makes no difference. -/
theorem getNextValuesWrapFrom_eq_of_fits {σ : Type} (draw : σ → Nat × σ) (chunkSize : Int)
    (g : ShuffleGenerator) (s : σ)
    (h : fitsInt32 (batchEnd g chunkSize - batchStart g) = true) :
    getNextValuesWrapFrom draw chunkSize g s = getNextValuesFrom draw chunkSize g s := by
  unfold getNextValuesWrapFrom getNextValuesFrom
  simp only [toInt32_toUInt32_of_fits _ h, h, Bool.true_eq_false, if_false]

/-- C3 (batch length), the code at a failing input.  `ShuffleGenerator(4294967295)`
after its `4294967295` values is a reachable state with `cursor = n`, so no
value remains and `min(chunkSize, n - cursor) = 0` for `chunkSize = 1`.  But
in `getNextValues(1)` the `uint32_t` sum `current + 1` wraps to `0`, `start`
is `-1` and `end` is `0`: the call returns a sequence of one element, `dval`,
with or without wrap-around of the signed subtraction (which does not
overflow here). -/
theorem batch_length_failing_input :
    Reachable 4294967295
        (getNextValueTimes xorshf96 4294967295 (create 4294967295) Rng.seed).2.1 ∧
      (getNextValueTimes xorshf96 4294967295 (create 4294967295) Rng.seed).2.1.current
        = 4294967295 ∧
      batchStart (getNextValueTimes xorshf96 4294967295 (create 4294967295) Rng.seed).2.1
        = -1 ∧
      batchEnd (getNextValueTimes xorshf96 4294967295 (create 4294967295) Rng.seed).2.1 1
        = 0 ∧
      (getNextValuesFrom xorshf96 1
          (getNextValueTimes xorshf96 4294967295 (create 4294967295) Rng.seed).2.1
          (getNextValueTimes xorshf96 4294967295 (create 4294967295) Rng.seed).2.2).map
        (fun r => r.1) = some [dval] ∧
      (getNextValuesWrapFrom xorshf96 1
          (getNextValueTimes xorshf96 4294967295 (create 4294967295) Rng.seed).2.1
          (getNextValueTimes xorshf96 4294967295 (create 4294967295) Rng.seed).2.2).map
        (fun r => r.1) = some [dval] ∧
      [dval].length ≠ min 1 (4294967295 - 4294967295) := by
  obtain ⟨h1, hcur⟩ := getNextValueTimes_fresh_state xorshf96 Rng.seed 4294967295 4294967295
    (by decide) (Nat.le_refl _)
  have hs : batchStart
      (getNextValueTimes xorshf96 4294967295 (create 4294967295) Rng.seed).2.1 = -1 := by
    unfold batchStart; rw [hcur]; decide
  have he : batchEnd
      (getNextValueTimes xorshf96 4294967295 (create 4294967295) Rng.seed).2.1 1 = 0 := by
    unfold batchEnd; rw [hcur, h1.n_eq]; decide
  have hfit : fitsInt32 (batchEnd
      (getNextValueTimes xorshf96 4294967295 (create 4294967295) Rng.seed).2.1 1 -
      batchStart (getNextValueTimes xorshf96 4294967295 (create 4294967295) Rng.seed).2.1)
        = true := by
    rw [hs, he]; decide
  refine ⟨Reachable_getNextValueTimes xorshf96 _ _ _ _ Reachable.init, hcur, hs, he, ?_, ?_,
    by decide⟩
  · rw [getNextValuesFrom_one_at_max xorshf96 _ _ hcur h1.n_eq]
    rfl
  · rw [getNextValuesWrapFrom_eq_of_fits xorshf96 1 _ _ hfit,
      getNextValuesFrom_one_at_max xorshf96 _ _ hcur h1.n_eq]
    rfl

/-- Batch length on generators of `int` size, where the code is right.  For
every `n <= 2^31 - 1`, every reachable
state of `ShuffleGenerator(n)` and every `chunkSize` with
`0 < chunkSize <= 2^31 - 1`, `getNextValues(chunkSize)` returns a sequence of
exactly `min(chunkSize, n - cursor)` values: `n - cursor` of them when fewer
than `chunkSize` remain, `chunkSize` otherwise. -/
theorem batch_length {σ : Type} (draw : σ → Nat × σ) (s : σ) (n : Nat)
    (g : ShuffleGenerator) (chunkSize : Int) (hn : n ≤ 2147483647) (hg : Reachable n g)
    (h0 : 0 < chunkSize) (h1 : chunkSize ≤ 2147483647) :
    ∃ r, getNextValuesFrom draw chunkSize g s = some r ∧
      (r.1.length : Int) = min chunkSize ((n : Int) - (g.current : Int)) ∧
      ((n : Int) - (g.current : Int) < chunkSize → r.1.length = n - g.current) ∧
      (chunkSize ≤ (n : Int) - (g.current : Int) → (r.1.length : Int) = chunkSize) := by
  have hinv := Reachable_Inv n (by unfold wordSize; omega) g hg
  have hgn := hinv.n_eq
  have hgc := hinv.current_le
  refine ⟨_, getNextValuesFrom_eq draw g s chunkSize (by omega) (by omega) (by omega)
    (by omega), ?_, ?_, ?_⟩
  · rw [getNextValueTimes_length, hgn]
    omega
  · intro h
    rw [getNextValueTimes_length, hgn]
    omega
  · intro h
    rw [getNextValueTimes_length, hgn]
    omega

/-- An instance of `batch_length`: the first demonstration,
`ShuffleGenerator(123)` after two values, asked for `123`. -/
theorem batch_length_witness :
    (123 ≤ 2147483647 ∧
        Reachable 123 (getNextValueTimes xorshf96 2 (create 123) Rng.seed).2.1 ∧
        (0 : Int) < 123 ∧ (123 : Int) ≤ 2147483647) ∧
      ∃ r, getNextValuesFrom xorshf96 123
          (getNextValueTimes xorshf96 2 (create 123) Rng.seed).2.1
          (getNextValueTimes xorshf96 2 (create 123) Rng.seed).2.2 = some r ∧
        (r.1.length : Int) = min 123 ((123 : Int) -
          ((getNextValueTimes xorshf96 2 (create 123) Rng.seed).2.1.current : Int)) :=
  ⟨⟨by decide, Reachable_getNextValueTimes xorshf96 123 2 _ _ Reachable.init, by decide,
      by decide⟩,
    (batch_length xorshf96 _ 123 _ 123 (by decide)
      (Reachable_getNextValueTimes xorshf96 123 2 _ _ Reachable.init) (by decide)
      (by decide)).imp (fun _ h => ⟨h.1, h.2.1⟩)⟩

/-- A sequence of batches whose sizes are not negative and sum to at most the
number of values left is the same as that many single calls. -/
theorem getNextValuesSeq_eq {σ : Type} (draw : σ → Nat × σ) (n : Nat) (hn : n < 2147483648) :
    ∀ (ks : List Int) (g : ShuffleGenerator) (s : σ), Inv n g → (∀ k ∈ ks, 0 ≤ k) →
      (g.current : Int) + ks.sum ≤ n →
      ∃ rs, getNextValuesSeq draw ks g s =
          some (rs, (getNextValueTimes draw ks.sum.toNat g s).2) ∧
        rs.flatten = (getNextValueTimes draw ks.sum.toNat g s).1 ∧
        rs.map (fun l => (l.length : Int)) = ks := by
  intro ks
  induction ks with
  | nil =>
    intro g s _ _ _
    exact ⟨[], rfl, rfl, rfl⟩
  | cons k ks ih =>
    intro g s hinv hpos hsum
    have hk : 0 ≤ k := hpos k (List.mem_cons_self _ _)
    have hks : ∀ k' ∈ ks, 0 ≤ k' := fun k' h => hpos k' (List.mem_cons_of_mem _ h)
    have hks0 : 0 ≤ ks.sum := List.sum_nonneg hks
    rw [List.sum_cons] at hsum
    have hgn := hinv.n_eq
    have hgc := hinv.current_le
    have hmin : min k.toNat (g.n - g.current) = k.toNat := by omega
    have hbatch := getNextValuesFrom_eq draw g s k (by omega) (by omega) hk (by omega)
    rw [hmin] at hbatch
    obtain ⟨h1, h2, _, _⟩ :=
      getNextValueTimes_spec draw n (by unfold wordSize; omega) k.toNat g s hinv (by omega)
    obtain ⟨rs, hrs, hjoin, hlen⟩ := ih (getNextValueTimes draw k.toNat g s).2.1
      (getNextValueTimes draw k.toNat g s).2.2 h1 hks (by rw [h2]; push_cast; omega)
    have hsplit : (k :: ks).sum.toNat = k.toNat + ks.sum.toNat := by
      rw [List.sum_cons]; omega
    refine ⟨(getNextValueTimes draw k.toNat g s).1 :: rs, ?_, ?_, ?_⟩
    · rw [getNextValuesSeq, hbatch]
      simp only [hrs]
      rw [hsplit, getNextValueTimes_add]
    · rw [hsplit, getNextValueTimes_add, List.flatten_cons, hjoin]
    · rw [List.map_cons, hlen, getNextValueTimes_length]
      congr 1
      omega

/-- At `cursor = 1` and `n = 2^31` the call `getNextValues(2^31 - 1)` has
`start = 1` and `end = -2^31`: the loop condition fails at once and
`end - start` overflows `int`, so there is no result. -/
theorem getNextValuesFrom_overflow {σ : Type} (draw : σ → Nat × σ) (g : ShuffleGenerator)
    (s : σ) (hc : g.current = 1) (hn : g.n = 2147483648) :
    batchStart g = 1 ∧ batchEnd g 2147483647 = -2147483648 ∧
      getNextValuesFrom draw 2147483647 g s = none := by
  have hs : batchStart g = 1 := by unfold batchStart; rw [hc]; decide
  have he : batchEnd g 2147483647 = -2147483648 := by unfold batchEnd; rw [hc, hn]; decide
  refine ⟨hs, he, ?_⟩
  unfold getNextValuesFrom
  simp only [hs, he]
  rw [if_pos (by decide)]

/-- On a fresh generator the first batch is exact for every `uint32_t` size:
`start = 0` and `end = min(chunkSize, n) <= chunkSize` fit `int`. -/
theorem getNextValuesFrom_fresh {σ : Type} (draw : σ → Nat × σ) (s : σ) (n : Nat)
    (chunkSize : Int) (h0 : 0 ≤ chunkSize) (h1 : chunkSize < 2147483648) :
    getNextValuesFrom draw chunkSize (create n) s =
      some (getNextValueTimes draw (min chunkSize.toNat n) (create n) s) := by
  have hc : (create n).current = 0 := rfl
  have hn : (create n).n = n := rfl
  have h := getNextValuesFrom_eq_of_end draw (create n) s chunkSize
    (by rw [hc, hn]; omega) (by rw [hc]; exact Nat.zero_le _) h0 h1
  rw [hc, hn, Nat.sub_zero] at h
  exact h

/-- At `cursor = 1` and `n = 2^31`, when `end - start` wraps around, the size
of the result vector is `2^31 - 1` and the loop does not run:
`getNextValues(2^31 - 1)` returns `2^31 - 1` zeros and leaves the generator
and the word source as they were. -/
theorem getNextValuesWrapFrom_overflow {σ : Type} (draw : σ → Nat × σ)
    (g : ShuffleGenerator) (s : σ) (hc : g.current = 1) (hn : g.n = 2147483648) :
    getNextValuesWrapFrom draw 2147483647 g s =
      some (List.replicate 2147483647 0, g, s) := by
  obtain ⟨hs, he, _⟩ := getNextValuesFrom_overflow draw g s hc hn
  have e1 : toInt32 (toUInt32 (-2147483648 - 1)) = 2147483647 := by decide
  have e2 : ((-2147483648 : Int) - 1).toNat = 0 := by decide
  have e3 : (2147483647 : Int).toNat = 2147483647 := by decide
  unfold getNextValuesWrapFrom
  simp only [hs, he]
  rw [e1, e2, e3, if_neg (by decide)]
  simp only [fillValues]

/-- C4 (batch equivalence), the code at a failing input.  For `n = 2^31`,
which `ShuffleGenerator(uint32_t size)` admits, the chunk sizes `1` and
`2^31 - 1` sum to `n`.  The first batch is one call of `getNextValue` and
leaves the cursor at `1`.  In the second batch `start = 1` and
`end = int(2^31) = -2^31`, so `end - start` does not fit `int`: the call has
no defined result, and when the subtraction wraps around it returns
`2^31 - 1` zeros without calling `getNextValue` and leaves the cursor at `1`.
The `2^31` single calls return `2^31` pairwise distinct values and end with
the cursor at `2^31`, so in neither reading do the batches reproduce them. -/
theorem batch_equivalence_failing_input :
    (1 : Int) + 2147483647 ≤ 2147483648 ∧
      getNextValuesFrom xorshf96 1 (create 2147483648) Rng.seed =
        some (getNextValueTimes xorshf96 1 (create 2147483648) Rng.seed) ∧
      (getNextValueTimes xorshf96 1 (create 2147483648) Rng.seed).2.1.current = 1 ∧
      batchStart (getNextValueTimes xorshf96 1 (create 2147483648) Rng.seed).2.1 = 1 ∧
      batchEnd (getNextValueTimes xorshf96 1 (create 2147483648) Rng.seed).2.1 2147483647 =
        -2147483648 ∧
      fitsInt32
        (batchEnd (getNextValueTimes xorshf96 1 (create 2147483648) Rng.seed).2.1 2147483647 -
          batchStart (getNextValueTimes xorshf96 1 (create 2147483648) Rng.seed).2.1) = false ∧
      getNextValuesFrom xorshf96 2147483647
        (getNextValueTimes xorshf96 1 (create 2147483648) Rng.seed).2.1
        (getNextValueTimes xorshf96 1 (create 2147483648) Rng.seed).2.2 = none ∧
      getNextValuesSeq xorshf96 [1, 2147483647] (create 2147483648) Rng.seed = none ∧
      getNextValuesWrapFrom xorshf96 2147483647
        (getNextValueTimes xorshf96 1 (create 2147483648) Rng.seed).2.1
        (getNextValueTimes xorshf96 1 (create 2147483648) Rng.seed).2.2 =
        some (List.replicate 2147483647 0,
          (getNextValueTimes xorshf96 1 (create 2147483648) Rng.seed).2.1,
          (getNextValueTimes xorshf96 1 (create 2147483648) Rng.seed).2.2) ∧
      (getNextValueTimes xorshf96 2147483648 (create 2147483648) Rng.seed).2.1.current =
        2147483648 ∧
      (getNextValueTimes xorshf96 2147483648 (create 2147483648) Rng.seed).1.Nodup ∧
      (getNextValueTimes xorshf96 1 (create 2147483648) Rng.seed).1 ++
          List.replicate 2147483647 0 ≠
        (getNextValueTimes xorshf96 2147483648 (create 2147483648) Rng.seed).1 := by
  obtain ⟨h1, h2⟩ := getNextValueTimes_fresh_state xorshf96 Rng.seed 2147483648 1
    (by decide) (by decide)
  obtain ⟨_, hall⟩ := getNextValueTimes_fresh_state xorshf96 Rng.seed 2147483648 2147483648
    (by decide) (Nat.le_refl _)
  have hnd := (getNextValueTimes_fresh xorshf96 Rng.seed 2147483648 (by decide)).1
  have hfirst : getNextValuesFrom xorshf96 1 (create 2147483648) Rng.seed =
      some (getNextValueTimes xorshf96 1 (create 2147483648) Rng.seed) :=
    getNextValuesFrom_fresh xorshf96 Rng.seed 2147483648 1 (by decide) (by decide)
  obtain ⟨hs, he, hnone⟩ := getNextValuesFrom_overflow xorshf96
    (getNextValueTimes xorshf96 1 (create 2147483648) Rng.seed).2.1
    (getNextValueTimes xorshf96 1 (create 2147483648) Rng.seed).2.2 h2 h1.n_eq
  refine ⟨by decide, hfirst, h2, hs, he, ?_, hnone, ?_,
    getNextValuesWrapFrom_overflow xorshf96 _ _ h2 h1.n_eq, hall, hnd, ?_⟩
  · rw [hs, he]
    decide
  · rw [getNextValuesSeq, hfirst]
    simp only [getNextValuesSeq, hnone]
  · intro heq
    rw [← heq] at hnd
    have hrep := (List.nodup_append.mp hnd).2.1
    rw [List.nodup_replicate] at hrep
    exact absurd hrep (by decide)

/-- Batch equivalence on generators of `int` size, where the code is right.
For every `n <= 2^31 - 1` and every list
of positive chunk sizes `k1, k2, ...` whose sum `m` is at most `n`, the calls
`getNextValues(k1)`, `getNextValues(k2)`, ... on a fresh generator all return,
the `i`-th sequence has `ki` values, their concatenation is the sequence of
`m` successive `getNextValue` results on a fresh generator of the same `n`
from the same state of the word source, and both runs end in the same
generator and the same state of the word source. -/
theorem batch_equivalence {σ : Type} (draw : σ → Nat × σ) (s : σ) (n : Nat) (ks : List Int)
    (hn : n ≤ 2147483647) (hpos : ∀ k ∈ ks, 0 < k) (hsum : ks.sum ≤ n) :
    ∃ rs, getNextValuesSeq draw ks (create n) s =
        some (rs, (getNextValueTimes draw ks.sum.toNat (create n) s).2) ∧
      rs.flatten = (getNextValueTimes draw ks.sum.toNat (create n) s).1 ∧
      rs.map (fun l => (l.length : Int)) = ks :=
  getNextValuesSeq_eq draw n (by omega) ks (create n) s (Inv_create n)
    (fun k hk => le_of_lt (hpos k hk)) (by simpa [create] using hsum)

/-- An instance of `batch_equivalence`: one batch of `1000000` out of
`20000000`, the sizes of the fourth demonstration, followed by a second batch
of `500`, on `xorshf96` started from its seed registers. -/
theorem batch_equivalence_witness :
    (20000000 ≤ 2147483647 ∧ (∀ k ∈ [(1000000 : Int), 500], 0 < k) ∧
        [(1000000 : Int), 500].sum ≤ (20000000 : Nat)) ∧
      ∃ rs, getNextValuesSeq xorshf96 [1000000, 500] (create 20000000) Rng.seed =
          some (rs, (getNextValueTimes xorshf96 ([(1000000 : Int), 500].sum.toNat)
            (create 20000000) Rng.seed).2) ∧
        rs.flatten = (getNextValueTimes xorshf96 ([(1000000 : Int), 500].sum.toNat)
          (create 20000000) Rng.seed).1 ∧
        rs.map (fun l => (l.length : Int)) = [1000000, 500] :=
  ⟨⟨by decide, by decide, by decide⟩,
    batch_equivalence xorshf96 Rng.seed 20000000 [1000000, 500] (by decide) (by decide)
      (by decide)⟩

/-- C5 (mixed single and batch consumption).  For every `n <= 2^31 - 1`,
every `j <= n`, every `chunkSize` with `n - j <= chunkSize <= 2^31 - 1` and
every word source, after `j` calls of `getNextValue` the call
`getNextValues(chunkSize)` returns exactly `n - j` values, pairwise distinct,
disjoint from the `j` values returned before, and together with them a
permutation of `[0, n)`. -/
theorem mixed_consumption {σ : Type} (draw : σ → Nat × σ) (s : σ) (n j : Nat)
    (chunkSize : Int) (hn : n ≤ 2147483647) (hj : j ≤ n)
    (hlo : (n : Int) - (j : Int) ≤ chunkSize) (hhi : chunkSize ≤ 2147483647) :
    ∃ r, getNextValuesFrom draw chunkSize (getNextValueTimes draw j (create n) s).2.1
          (getNextValueTimes draw j (create n) s).2.2 = some r ∧
      r.1.length = n - j ∧
      r.1.Nodup ∧
      List.Disjoint (getNextValueTimes draw j (create n) s).1 r.1 ∧
      ((getNextValueTimes draw j (create n) s).1 ++ r.1).Perm (List.range n) ∧
      ∀ v, v < n → v ∈ (getNextValueTimes draw j (create n) s).1 ∨ v ∈ r.1 := by
  obtain ⟨h1, h2, _, _⟩ :=
    getNextValueTimes_spec draw n (by unfold wordSize; omega) j (create n) s (Inv_create n)
      (by simpa [create] using hj)
  have hcur : (getNextValueTimes draw j (create n) s).2.1.current = j := by
    rw [h2]; simp [create]
  have hgn := h1.n_eq
  have hbatch := getNextValuesFrom_eq draw (getNextValueTimes draw j (create n) s).2.1
    (getNextValueTimes draw j (create n) s).2.2 chunkSize (by omega) (by omega) (by omega)
    (by omega)
  have hmin : min chunkSize.toNat ((getNextValueTimes draw j (create n) s).2.1.n -
      (getNextValueTimes draw j (create n) s).2.1.current) = n - j := by
    rw [hgn, hcur]; omega
  rw [hmin] at hbatch
  have hall := getNextValueTimes_fresh draw s n (by unfold wordSize; omega)
  have hsplit := getNextValueTimes_add draw j (n - j) (create n) s
  rw [show j + (n - j) = n by omega] at hsplit
  rw [hsplit] at hall
  simp only [] at hall
  have hnd := List.nodup_append.mp hall.1
  refine ⟨_, hbatch, getNextValueTimes_length draw _ _ _, hnd.2.1, hnd.2.2, hall.2, ?_⟩
  intro v hv
  have hmem : v ∈ List.range n := List.mem_range.mpr hv
  exact List.mem_append.mp (hall.2.mem_iff.mpr hmem)

/-- Witness for C5: the first demonstration, `n = 123`, two single values, then
`getNextValues(123)`, which returns `121` values. -/
theorem mixed_consumption_witness :
    (123 ≤ 2147483647 ∧ 2 ≤ 123 ∧ ((123 : Nat) : Int) - ((2 : Nat) : Int) ≤ 123 ∧
        (123 : Int) ≤ 2147483647) ∧
      ∃ r, getNextValuesFrom xorshf96 123
            (getNextValueTimes xorshf96 2 (create 123) Rng.seed).2.1
            (getNextValueTimes xorshf96 2 (create 123) Rng.seed).2.2 = some r ∧
        r.1.length = 121 :=
  ⟨⟨by decide, by decide, by decide, by decide⟩,
    (mixed_consumption xorshf96 Rng.seed 123 2 123 (by decide) (by decide) (by decide)
      (by decide)).imp (fun _ h => ⟨h.1, h.2.1⟩)⟩

/-- A slot of a generator over `[0, n)` is unset or holds a value below `n`. -/
theorem ShuffleGenerator.Inv.slot_cases {n : Nat} {g : ShuffleGenerator} (hinv : Inv n g)
    (i : Nat) (hi : i < n) : g.indices.getD i 0 = dval ∨ g.indices.getD i 0 < n := by
  by_cases h : g.indices.getD i 0 = dval
  · exact Or.inl h
  · right
    have hl := hinv.logical_lt i hi
    unfold logical at hl
    rwa [if_neg h] at hl

/-- C7 (the sentinel is distinguishable).  For every `n <= 2^32 - 1` and every
reachable state of `ShuffleGenerator(n)`: `getNextValue` returns `dval` if and
only if `cursor >= n`; when `cursor < n` the value returned is below `n` and
is not `dval`; every slot holds `dval` (unset) or a value below `n`, the slots
below the cursor hold no `dval`, and the two slots an active call writes, at
the cursor and at the pick, hold values below `n` afterwards, so a written
slot never holds `dval`. -/
theorem sentinel_distinguishable {σ : Type} (draw : σ → Nat × σ) (s : σ) (n : Nat)
    (g : ShuffleGenerator) (hn : n ≤ 4294967295) (hg : Reachable n g) :
    ((getNextValueFrom draw g s).1 = dval ↔ g.n ≤ g.current) ∧
      (g.current < g.n →
        (getNextValueFrom draw g s).1 < n ∧ (getNextValueFrom draw g s).1 ≠ dval) ∧
      (∀ i, i < n → g.indices.getD i 0 = dval ∨ g.indices.getD i 0 < n) ∧
      (∀ i, i < g.current → g.indices.getD i 0 ≠ dval) ∧
      (g.current < g.n →
        (getNextValueFrom draw g s).2.1.indices.getD g.current 0 < n ∧
        (getNextValueFrom draw g s).2.1.indices.getD (pickIndex g (draw s).1) 0 < n) := by
  have hw : n < wordSize := by unfold wordSize; omega
  have hinv := Reachable_Inv n hw g hg
  have hgn := hinv.n_eq
  have hactive : g.current < g.n →
      (getNextValueFrom draw g s).1 < n ∧ (getNextValueFrom draw g s).1 ≠ dval := by
    intro hc
    have hpb := pickIndex_bounds g (draw s).1 (by omega) hc
    rw [getNextValueFrom_stepped draw g s (by omega) hc]
    have hlt := hinv.logical_lt (pickIndex g (draw s).1) (by omega)
    exact ⟨hlt, by unfold dval; omega⟩
  refine ⟨?_, hactive, hinv.slot_cases, hinv.written, ?_⟩
  · constructor
    · intro h
      by_contra hc
      exact (hactive (by omega)).2 h
    · intro h
      rw [getNextValueFrom_exhausted draw g s h]
  · intro hc
    have hpb := pickIndex_bounds g (draw s).1 (by omega) hc
    have hp : pickIndex g (draw s).1 < n := by omega
    have hc' : g.current < n := by omega
    have hcp : g.current ≤ pickIndex g (draw s).1 := hpb.2.1
    have e1 := (stepped_below g n _ hinv hc' hcp hp).1
    have e2 : (stepped g (pickIndex g (draw s).1)).indices.getD (pickIndex g (draw s).1) 0 =
        logical g g.current := by
      rw [stepped_getD g n _ hinv hc' hp, if_pos rfl]
    rw [getNextValueFrom_stepped draw g s (by omega) hc]
    simp only []
    rw [e1, e2]
    exact ⟨hinv.logical_lt _ hp, hinv.logical_lt _ hc'⟩

/-- Witness for C7: `ShuffleGenerator(7)` after three values. -/
theorem sentinel_distinguishable_witness :
    (7 ≤ 4294967295 ∧
        Reachable 7 (getNextValueTimes xorshf96 3 (create 7) Rng.seed).2.1) ∧
      ((getNextValueFrom xorshf96 (getNextValueTimes xorshf96 3 (create 7) Rng.seed).2.1
          (getNextValueTimes xorshf96 3 (create 7) Rng.seed).2.2).1 = dval ↔
        (getNextValueTimes xorshf96 3 (create 7) Rng.seed).2.1.n ≤
          (getNextValueTimes xorshf96 3 (create 7) Rng.seed).2.1.current) :=
  ⟨⟨by decide, Reachable_getNextValueTimes xorshf96 7 3 _ _ Reachable.init⟩,
    (sentinel_distinguishable xorshf96 _ 7 _ (by decide)
      (Reachable_getNextValueTimes xorshf96 7 3 _ _ Reachable.init)).1⟩

/-- The first `k` slots of an array of at least `k` slots, read one by one. -/
theorem take_eq_map_getD (l : List Nat) (k : Nat) (hk : k ≤ l.length) :
    l.take k = (List.range' 0 k).map (fun i => l.getD i 0) := by
  apply List.ext_getElem
  · simp [Nat.min_eq_left hk]
  · intro i h1 h2
    have hi : i < k := by simpa using h2
    simp [List.getD_eq_getElem?_getD, List.getElem?_eq_getElem (Nat.lt_of_lt_of_le hi hk)]

/-- The data-model invariant after `k <= n` calls on a fresh generator. -/
theorem data_model_active {σ : Type} (draw : σ → Nat × σ) (s : σ) (n k : Nat)
    (hn : n < wordSize) (hk : k ≤ n) :
    Inv n (getNextValueTimes draw k (create n) s).2.1 ∧
      (getNextValueTimes draw k (create n) s).2.1.current = k ∧
      (getNextValueTimes draw k (create n) s).2.1.indices.take k =
        (getNextValueTimes draw k (create n) s).1 ∧
      (getNextValueTimes draw k (create n) s).1.Nodup ∧
      (∀ v ∈ (getNextValueTimes draw k (create n) s).1, v < n) ∧
      ((getNextValueTimes draw k (create n) s).1 ++
          (List.range' k (n - k)).map
            (logical (getNextValueTimes draw k (create n) s).2.1)).Perm (List.range n) := by
  have h0 : (create n).current + k ≤ n := by simpa [create] using hk
  obtain ⟨h1, h2, _, h4⟩ := getNextValueTimes_spec draw n hn k (create n) s (Inv_create n) h0
  have hnd := getNextValueTimes_nodup draw n hn k (create n) s (Inv_create n) h0
  have hlog := getNextValueTimes_logical draw n hn k (create n) s (Inv_create n) h0
  have hc0 : (create n).current = 0 := rfl
  rw [hc0] at h2 h4 hlog
  refine ⟨h1, by simpa using h2, ?_, hnd.1, hnd.2, ?_⟩
  · rw [take_eq_map_getD _ k (by rw [h1.length_eq]; exact hk)]
    exact h4.symm
  · rw [hlog, ← List.map_append]
    have hr : List.range' 0 k ++ List.range' k (n - k) = List.range n := by
      have := List.range'_append_1 0 k (n - k)
      rw [Nat.zero_add] at this
      rw [this, List.range_eq_range']
      congr 1
      omega
    rw [hr]
    exact h1.logical_perm

/-- Any number `k` of calls on a fresh generator is `min k n` calls that return
values followed by calls that return `dval` and change nothing. -/
theorem getNextValueTimes_split {σ : Type} (draw : σ → Nat × σ) (s : σ) (n k : Nat)
    (hn : n < wordSize) :
    getNextValueTimes draw k (create n) s =
      ((getNextValueTimes draw (min k n) (create n) s).1 ++
          List.replicate (k - min k n) dval,
        (getNextValueTimes draw (min k n) (create n) s).2) := by
  obtain ⟨h1, h2, _⟩ := data_model_active draw s n (min k n) hn (Nat.min_le_right k n)
  have hrest : getNextValueTimes draw (k - min k n)
      (getNextValueTimes draw (min k n) (create n) s).2.1
      (getNextValueTimes draw (min k n) (create n) s).2.2 =
      (List.replicate (k - min k n) dval,
        (getNextValueTimes draw (min k n) (create n) s).2.1,
        (getNextValueTimes draw (min k n) (create n) s).2.2) := by
    by_cases hk : k ≤ n
    · rw [show k - min k n = 0 by omega]
      rfl
    · exact getNextValueTimes_exhausted draw _ _ (by rw [h1.n_eq, h2]; omega) _
  have hadd := getNextValueTimes_add draw (min k n) (k - min k n) (create n) s
  rw [show min k n + (k - min k n) = k by omega, hrest] at hadd
  exact hadd

/-- C10 (data-model invariant).  In the state reached from `ShuffleGenerator(n)`
by any number of `getNextValue` calls, with cursor `c`: the backing array has
`n` slots; (1) the slots `[0, c)` hold the `c` values returned so far, in the
order returned, and these are pairwise distinct and below `n`; (2) the logical
view is a permutation of `[0, n)`, and the values returned so far followed by
the logical contents of the suffix `[c, n)` are a permutation of `[0, n)`, so
the suffix stands for exactly the values not yet returned, each once. -/
theorem data_model_invariant {σ : Type} (draw : σ → Nat × σ) (s : σ) (n k : Nat)
    (hn : n ≤ 4294967295) :
    (getNextValueTimes draw k (create n) s).2.1.current = min k n ∧
      (getNextValueTimes draw k (create n) s).2.1.indices.length = n ∧
      (getNextValueTimes draw k (create n) s).2.1.indices.take (min k n) =
        (getNextValueTimes draw k (create n) s).1.take (min k n) ∧
      ((getNextValueTimes draw k (create n) s).1.take (min k n)).Nodup ∧
      (∀ v ∈ (getNextValueTimes draw k (create n) s).1.take (min k n), v < n) ∧
      ((List.range n).map
        (logical (getNextValueTimes draw k (create n) s).2.1)).Perm (List.range n) ∧
      ((getNextValueTimes draw k (create n) s).1.take (min k n) ++
          (List.range' (min k n) (n - min k n)).map
            (logical (getNextValueTimes draw k (create n) s).2.1)).Perm (List.range n) := by
  have hw : n < wordSize := by unfold wordSize; omega
  obtain ⟨h1, h2, h3, h4, h5, h6⟩ :=
    data_model_active draw s n (min k n) hw (Nat.min_le_right k n)
  have hlen := getNextValueTimes_length draw (min k n) (create n) s
  rw [getNextValueTimes_split draw s n k hw]
  simp only []
  rw [List.take_left' hlen]
  exact ⟨h2, h1.length_eq, h3, h4, h5, h1.logical_perm, h6⟩

/-- Witness for C10: `ShuffleGenerator(7)` after ten calls, the sizes of the
second demonstration, on `xorshf96` started from its seed registers. -/
theorem data_model_invariant_witness :
    7 ≤ 4294967295 ∧
      ((getNextValueTimes xorshf96 10 (create 7) Rng.seed).1.take (min 10 7) ++
          (List.range' (min 10 7) (7 - min 10 7)).map
            (logical (getNextValueTimes xorshf96 10 (create 7) Rng.seed).2.1)).Perm
        (List.range 7) :=
  ⟨by decide, (data_model_invariant xorshf96 Rng.seed 7 10 (by decide)).2.2.2.2.2.2⟩

/-- C9 (determinism given fixed seed).  The replies to any fixed sequence of
`getNextValue` / `getNextValues` requests, and the final state, are determined
by `n` and the registers `(x, y, z)` of `xorshf96` at the start: two runs with
the same `n` from the same registers return the same replies and end in the
same generator and registers. -/
theorem determinism (calls : List Call) (n₁ n₂ : Nat) (r₁ r₂ : Rng) (hn : n₁ = n₂)
    (hx : r₁.x = r₂.x) (hy : r₁.y = r₂.y) (hz : r₁.z = r₂.z) :
    runCalls xorshf96 calls (create n₁) r₁ = runCalls xorshf96 calls (create n₂) r₂ := by
  cases r₁
  cases r₂
  simp only at hx hy hz
  subst hn hx hy hz
  rfl

/-- Witness for C9: the first demonstration run twice from the seed. -/
theorem determinism_witness :
    (123 = 123 ∧ Rng.seed.x = 123456789 ∧ Rng.seed.y = 362436069 ∧
        Rng.seed.z = 521288629) ∧
      runCalls xorshf96 [Call.next, Call.next, Call.batch 123] (create 123) Rng.seed =
        runCalls xorshf96 [Call.next, Call.next, Call.batch 123] (create 123)
          ⟨123456789, 362436069, 521288629⟩ :=
  ⟨⟨rfl, rfl, rfl, rfl⟩,
    determinism [Call.next, Call.next, Call.batch 123] 123 123 Rng.seed
      ⟨123456789, 362436069, 521288629⟩ rfl rfl rfl rfl⟩

/-! ## Picks as free inputs -/

/-- The recursive and the indexed description of pick sequences agree. -/
theorem validPicksFrom_iff (n : Nat) :
    ∀ (q : List Nat) (c : Nat), ValidPicksFrom n c q ↔
      (c + q.length = n ∧ ∀ j, j < q.length → c + j ≤ q.getD j 0 ∧ q.getD j 0 < n) := by
  intro q
  induction q with
  | nil =>
    intro c
    simp [ValidPicksFrom]
  | cons p q ih =>
    intro c
    rw [ValidPicksFrom, ih (c + 1)]
    constructor
    · rintro ⟨h1, h2, h3, h4⟩
      refine ⟨by rw [List.length_cons]; omega, ?_⟩
      intro j hj
      cases j with
      | zero => exact ⟨by simpa using h1, by simpa using h2⟩
      | succ j =>
        have := h4 j (by simpa using hj)
        simp only [List.getD_cons_succ]
        omega
    · rintro ⟨h1, h2⟩
      have h0 := h2 0 (by simp)
      simp only [List.getD_cons_zero, Nat.add_zero] at h0
      refine ⟨h0.1, h0.2, by rw [List.length_cons] at h1; omega, ?_⟩
      intro j hj
      have := h2 (j + 1) (by simpa using hj)
      simp only [List.getD_cons_succ] at this
      omega

theorem validPicks_iff (n : Nat) (p : List Nat) : ValidPicks n p ↔ ValidPicksFrom n 0 p := by
  rw [validPicksFrom_iff]
  unfold ValidPicks
  simp

/-- With the pick source, an active call picks the prescribed position. -/
theorem pickSource_pick (n : Nat) (g : ShuffleGenerator) (p : Nat) (q : List Nat)
    (hn : n < wordSize) (hgn : g.n = n) (hcp : g.current ≤ p) (hp : p < n) :
    pickIndex g (pickSource (g.current, p :: q)).1 = p := by
  have hpb := pickIndex_bounds g (p - g.current) (by omega) (by omega)
  have hmod : (p - g.current) % (g.n - g.current) = p - g.current :=
    Nat.mod_eq_of_lt (by omega)
  have : (pickSource (g.current, p :: q)).1 = p - g.current := rfl
  rw [this, hpb.1, hmod]
  omega

/-- One call with the pick source. -/
theorem pickSource_step (n : Nat) (g : ShuffleGenerator) (p : Nat) (q : List Nat)
    (hn : n < wordSize) (hgn : g.n = n) (hcp : g.current ≤ p) (hp : p < n) :
    getNextValueFrom pickSource g (g.current, p :: q) =
      (logical g p, stepped g p, (g.current + 1, q)) := by
  rw [getNextValueFrom_stepped pickSource g _ (by omega) (by omega),
    pickSource_pick n g p q hn hgn hcp hp]
  rfl

/-- A step permutes the logical contents of the suffix that starts at the
cursor. -/
theorem stepped_suffix_perm (n : Nat) (g : ShuffleGenerator) (p m : Nat) (hn : n < wordSize)
    (hinv : Inv n g) (hm : g.current + (m + 1) = n) (hcp : g.current ≤ p) (hp : p < n) :
    ((List.range' g.current (m + 1)).map (logical (stepped g p))).Perm
      ((List.range' g.current (m + 1)).map (logical g)) := by
  have hc : g.current < n := by omega
  have hinv1 := Inv_stepped g n p hinv hn hc hp
  have hlt : ∀ i ∈ List.range' g.current (m + 1), i < n := by
    intro i hi
    rw [List.mem_range'_1] at hi
    omega
  rw [List.perm_ext_iff_of_nodup (hinv1.nodup_map_logical _ (List.nodup_range' _ _) hlt)
    (hinv.nodup_map_logical _ (List.nodup_range' _ _) hlt)]
  intro v
  simp only [List.mem_map, List.mem_range'_1]
  constructor
  · rintro ⟨i, hi, rfl⟩
    refine ⟨exchange g.current p i, ⟨exchange_ge _ _ _ hcp hi.1, ?_⟩, ?_⟩
    · have := exchange_lt g.current p i n hc hp (by omega)
      omega
    · rw [logical_stepped g n p hinv hn hc hp]
  · rintro ⟨i, hi, rfl⟩
    refine ⟨exchange g.current p i, ⟨exchange_ge _ _ _ hcp hi.1, ?_⟩, ?_⟩
    · have := exchange_lt g.current p i n hc hp (by omega)
      omega
    · rw [logical_stepped g n p hinv hn hc hp, exchange_invol]

/-- Different pick sequences return different value sequences. -/
theorem pickSource_injective (n : Nat) (hn : n < wordSize) :
    ∀ (q q' : List Nat) (g : ShuffleGenerator), Inv n g →
      ValidPicksFrom n g.current q → ValidPicksFrom n g.current q' →
      (getNextValueTimes pickSource (n - g.current) g (g.current, q)).1 =
        (getNextValueTimes pickSource (n - g.current) g (g.current, q')).1 →
      q = q' := by
  intro q
  induction q with
  | nil =>
    intro q' g _ hq hq' _
    cases q' with
    | nil => rfl
    | cons p' q1 =>
      have h1 : g.current = n := hq
      have h2 : g.current ≤ p' ∧ p' < n := ⟨hq'.1, hq'.2.1⟩
      omega
  | cons p q ih =>
    intro q' g hinv hq hq' h
    cases q' with
    | nil =>
      have h1 : g.current = n := hq'
      have h2 : g.current ≤ p ∧ p < n := ⟨hq.1, hq.2.1⟩
      omega
    | cons p' q1 =>
      obtain ⟨hcp, hp, hq2⟩ := hq
      obtain ⟨hcp', hp', hq2'⟩ := hq'
      have hc : g.current < n := by omega
      rw [show n - g.current = (n - (g.current + 1)) + 1 by omega, getNextValueTimes_succ,
        getNextValueTimes_succ, pickSource_step n g p q hn hinv.n_eq hcp hp,
        pickSource_step n g p' q1 hn hinv.n_eq hcp' hp'] at h
      simp only [] at h
      obtain ⟨hhead, htail⟩ := List.cons.inj h
      have hpp : p = p' := hinv.logical_inj p p' hp hp' hhead
      subst hpp
      have hinv1 := Inv_stepped g n p hinv hn hc hp
      rw [ih q1 (stepped g p) hinv1 hq2 hq2' htail]

/-- Every arrangement of the logical contents of the suffix is returned for
some pick sequence. -/
theorem pickSource_surjective (n : Nat) (hn : n < wordSize) :
    ∀ (m : Nat) (g : ShuffleGenerator) (t : List Nat), Inv n g → g.current + m = n →
      t.Perm ((List.range' g.current m).map (logical g)) →
      ∃ q, ValidPicksFrom n g.current q ∧
        (getNextValueTimes pickSource m g (g.current, q)).1 = t := by
  intro m
  induction m with
  | zero =>
    intro g t _ hm ht
    have : t = [] := by simpa using ht
    subst this
    exact ⟨[], by simpa [ValidPicksFrom] using hm, rfl⟩
  | succ m ih =>
    intro g t hinv hm ht
    have hc : g.current < n := by omega
    cases t with
    | nil =>
      have := ht.length_eq
      simp at this
    | cons b t' =>
      have hb : b ∈ (List.range' g.current (m + 1)).map (logical g) :=
        ht.mem_iff.mp (List.mem_cons_self _ _)
      obtain ⟨p, hpR, hpb⟩ := List.mem_map.mp hb
      rw [List.mem_range'_1] at hpR
      have hp : p < n := by omega
      have hinv1 := Inv_stepped g n p hinv hn hc hp
      have hsuffix := stepped_suffix_perm n g p m hn hinv hm hpR.1 hp
      have hhead : logical (stepped g p) g.current = b := by
        rw [logical_stepped g n p hinv hn hc hp]
        have : exchange g.current p g.current = p := by
          unfold exchange
          split_ifs <;> omega
        rw [this, hpb]
      rw [List.range'_succ, List.map_cons, hhead] at hsuffix
      have ht' : t'.Perm ((List.range' (g.current + 1) m).map (logical (stepped g p))) :=
        (ht.trans hsuffix.symm).cons_inv
      obtain ⟨q, hq, hrun⟩ := ih (stepped g p) t' hinv1 (by show g.current + 1 + m = n; omega) ht'
      refine ⟨p :: q, ⟨hpR.1, hp, hq⟩, ?_⟩
      rw [getNextValueTimes_succ, pickSource_step n g p q hn hinv.n_eq hpR.1 hp]
      simp only []
      rw [hpb]
      exact congrArg _ hrun

theorem map_logical_create (n : Nat) :
    (List.range' 0 n).map (logical (create n)) = List.range n := by
  rw [List.range_eq_range']
  conv_rhs => rw [← List.map_id (List.range' 0 n)]
  apply List.map_congr_left
  intro i hi
  rw [List.mem_range'_1] at hi
  rw [logical_create n i (by omega)]
  rfl

/-- The pick source after `i` calls has handed out `i` words and holds the
picks still to come. -/
theorem pickSource_state (n : Nat) (hn : n < wordSize) :
    ∀ (i : Nat) (q : List Nat) (g : ShuffleGenerator), Inv n g →
      ValidPicksFrom n g.current q → i ≤ q.length →
      (getNextValueTimes pickSource i g (g.current, q)).2.2 = (g.current + i, q.drop i) := by
  intro i
  induction i with
  | zero => intro q g _ _ _; rfl
  | succ i ih =>
    intro q g hinv hq hi
    cases q with
    | nil => simp at hi
    | cons p q1 =>
      obtain ⟨hcp, hp, hq2⟩ := hq
      have hinv1 := Inv_stepped g n p hinv hn (by omega) hp
      rw [getNextValueTimes_succ, pickSource_step n g p q1 hn hinv.n_eq hcp hp]
      simp only []
      have := ih q1 (stepped g p) hinv1 hq2 (by simpa using hi)
      rw [show (stepped g p).current = g.current + 1 from rfl] at this
      rw [this, List.drop_succ_cons]
      congr 1
      omega

/-- With the pick source started on a valid pick sequence `p`, the `i`-th call
of `getNextValue` picks the position `p_i`. -/
theorem pickSource_picks (n : Nat) (hn : n < wordSize) (p : List Nat) (hp : ValidPicks n p)
    (i : Nat) (hi : i < n) :
    pickIndex (getNextValueTimes pickSource i (create n) (0, p)).2.1
      (pickSource (getNextValueTimes pickSource i (create n) (0, p)).2.2).1 = p.getD i 0 := by
  have hlen : p.length = n := hp.1
  have hpi := hp.2 i (by omega)
  obtain ⟨h1, h2, _, _⟩ := getNextValueTimes_spec pickSource n hn i (create n) (0, p)
    (Inv_create n) (by simp [create]; omega)
  have hcur : (getNextValueTimes pickSource i (create n) (0, p)).2.1.current = i := by
    rw [h2]; simp [create]
  have hst := pickSource_state n hn i p (create n) (Inv_create n)
    ((validPicks_iff n p).mp hp) (by omega)
  rw [show (create n).current = 0 from rfl] at hst
  rw [hst, Nat.zero_add]
  have hdrop : p.drop i = p.getD i 0 :: p.drop (i + 1) := by
    rw [List.getD_eq_getElem?_getD, List.getElem?_eq_getElem (by omega : i < p.length)]
    simp
  rw [hdrop]
  have := pickSource_pick n (getNextValueTimes pickSource i (create n) (0, p)).2.1
    (p.getD i 0) (p.drop (i + 1)) hn h1.n_eq (by omega) hpi.2
  rw [hcur] at this
  exact this

/-- The map from pick sequences to returned value sequences is a bijection
onto the permutations of `[0, n)`. -/
theorem valuesOfPicks_bijOn (n : Nat) (hw : n < wordSize) :
    Set.BijOn (valuesOfPicks n) {p | ValidPicks n p} {l | l.Perm (List.range n)} := by
  refine ⟨?_, ?_, ?_⟩
  · intro p _
    exact (getNextValueTimes_fresh pickSource (0, p) n hw).2
  · intro p hp p' hp' h
    exact pickSource_injective n hw p p' (create n) (Inv_create n)
      ((validPicks_iff n p).mp hp) ((validPicks_iff n p').mp hp') h
  · intro l hl
    have hl' : l.Perm ((List.range' (create n).current n).map (logical (create n))) := by
      rw [show (create n).current = 0 from rfl, map_logical_create]
      exact hl
    obtain ⟨q, hq, hrun⟩ := pickSource_surjective n hw n (create n) l (Inv_create n)
      (by simp [create]) hl'
    exact ⟨q, (validPicks_iff n q).mpr hq, hrun⟩

/-- There are `n!` permutations of `[0, n)`. -/
theorem ncard_permutations (n : Nat) :
    {l : List Nat | l.Perm (List.range n)}.ncard = n.factorial := by
  have hset : {l : List Nat | l.Perm (List.range n)} =
      ((List.range n).permutations.toFinset : Set (List Nat)) := by
    ext l
    simp [List.mem_permutations]
  rw [hset, Set.ncard_coe_Finset,
    List.toFinset_card_of_nodup (List.nodup_permutations _ (List.nodup_range n)),
    List.length_permutations, List.length_range]

/-- C8 (uniformity, combinatorially).  For every `uint32_t` size `n`, the map
sending a pick sequence `(p_0, ..., p_{n-1})` with `p_i` in `[i, n)` to the
sequence of `n` values returned by `getNextValue` is a bijection onto the
permutations of `[0, n)`: each permutation is returned for exactly one pick
sequence, where the `i`-th call indeed picks position `p_i`; and there are
`n!` pick sequences.  (So with independent picks, uniform on `[cursor, n)`,
each permutation is returned with the same probability `1 / n!`.) -/
theorem picks_to_permutations_bijective (n : Nat) (hn : n ≤ 4294967295) :
    Set.BijOn (valuesOfPicks n) {p | ValidPicks n p} {l | l.Perm (List.range n)} ∧
      (∀ p, ValidPicks n p → ∀ i, i < n →
        pickIndex (getNextValueTimes pickSource i (create n) (0, p)).2.1
          (pickSource (getNextValueTimes pickSource i (create n) (0, p)).2.2).1 =
            p.getD i 0) ∧
      {p | ValidPicks n p}.ncard = n.factorial := by
  have hw : n < wordSize := by unfold wordSize; omega
  have hb := valuesOfPicks_bijOn n hw
  refine ⟨hb, fun p hp i hi => pickSource_picks n hw p hp i hi, ?_⟩
  rw [← ncard_permutations n, ← hb.image_eq, Set.ncard_image_of_injOn hb.injOn]

/-- Witness for C8: `n = 3`, whose six pick sequences give the six
permutations of `[0, 3)`. -/
theorem picks_to_permutations_bijective_witness :
    3 ≤ 4294967295 ∧
      Set.BijOn (valuesOfPicks 3) {p | ValidPicks 3 p} {l | l.Perm (List.range 3)} :=
  ⟨by decide, (picks_to_permutations_bijective 3 (by decide)).1⟩

/-! ## One call: semantics, safety and frame -/

/-- The slots of the array after an active step, for an array of `n` slots. -/
theorem stepped_getD_of_length (g : ShuffleGenerator) (p : Nat)
    (hlen : g.indices.length = g.n) (hc : g.current < g.n) (hp : p < g.n) (i : Nat) :
    (stepped g p).indices.getD i 0 =
      if i = p then logical g g.current
      else if i = g.current then logical g p else g.indices.getD i 0 := by
  unfold stepped
  simp only [getD_set_zero, List.length_set, hlen, hp, hc, and_true]
  by_cases h1 : i = p
  · simp [h1]
  · by_cases h2 : i = g.current
    · have h3 : ¬ p = g.current := fun h => h1 (h2.trans h.symm)
      have h4 : ¬ g.current = p := fun h => h3 h.symm
      simp [h2, h3, h4]
    · have h1' : ¬ p = i := fun h => h1 h.symm
      have h2' : ¬ g.current = i := fun h => h2 h.symm
      simp [h1, h2, h1', h2']

/-- C11 (single-step semantics).  When `cursor < n` and the source yields the
word `r`, `getNextValue` picks `pick = cursor + r mod (n - cursor)`; with `A`
and `B` the logical values of the slots `cursor` and `pick` (an unset slot
reads as its own index), it writes `B` into slot `cursor` and then `A` into
slot `pick`, increments the cursor by exactly 1, leaves `n` alone, takes one
word from the source and returns `B`.  When `pick = cursor` the slot ends up
holding its own logical value, which is the value returned. -/
theorem single_step_semantics {σ : Type} (draw : σ → Nat × σ) (s : σ) (g : ShuffleGenerator)
    (hn : g.n ≤ 4294967295) (hlen : g.indices.length = g.n) (hc : g.current < g.n) :
    pickIndex g (draw s).1 = g.current + (draw s).1 % (g.n - g.current) ∧
      (∀ i, logical g i = if g.indices.getD i 0 = dval then i else g.indices.getD i 0) ∧
      (getNextValueFrom draw g s).1 = logical g (pickIndex g (draw s).1) ∧
      (getNextValueFrom draw g s).2.1.indices =
        (g.indices.set g.current (logical g (pickIndex g (draw s).1))).set
          (pickIndex g (draw s).1) (logical g g.current) ∧
      (getNextValueFrom draw g s).2.1.indices.getD (pickIndex g (draw s).1) 0 =
        logical g g.current ∧
      (pickIndex g (draw s).1 ≠ g.current →
        (getNextValueFrom draw g s).2.1.indices.getD g.current 0 =
          logical g (pickIndex g (draw s).1)) ∧
      (getNextValueFrom draw g s).2.1.current = g.current + 1 ∧
      (getNextValueFrom draw g s).2.1.n = g.n ∧
      (getNextValueFrom draw g s).2.2 = (draw s).2 ∧
      (pickIndex g (draw s).1 = g.current →
        (getNextValueFrom draw g s).2.1.indices.getD g.current 0 = logical g g.current ∧
        (getNextValueFrom draw g s).1 = logical g g.current) := by
  have hw : g.n < wordSize := by unfold wordSize; omega
  have hpb := pickIndex_bounds g (draw s).1 hw hc
  have hstep := getNextValueFrom_stepped draw g s hw hc
  have hget := stepped_getD_of_length g (pickIndex g (draw s).1) hlen hc hpb.2.2
  rw [hstep]
  refine ⟨by rw [hpb.1]; omega, fun _ => rfl, rfl, rfl, ?_, ?_, rfl, rfl, rfl, ?_⟩
  · show (stepped g (pickIndex g (draw s).1)).indices.getD (pickIndex g (draw s).1) 0 = _
    rw [hget, if_pos rfl]
  · intro hne
    show (stepped g (pickIndex g (draw s).1)).indices.getD g.current 0 = _
    rw [hget, if_neg (fun h => hne h.symm), if_pos rfl]
  · intro heq
    constructor
    · show (stepped g (pickIndex g (draw s).1)).indices.getD g.current 0 = _
      rw [hget, if_pos heq.symm]
    · show logical g (pickIndex g (draw s).1) = _
      rw [heq]

/-- Witness for C11: the first call on `ShuffleGenerator(7)` from the seed
picks position 5 and returns 5. -/
theorem single_step_semantics_witness :
    ((create 7).n ≤ 4294967295 ∧ (create 7).indices.length = (create 7).n ∧
        (create 7).current < (create 7).n) ∧
      (getNextValueFrom xorshf96 (create 7) Rng.seed).1 =
        logical (create 7) (pickIndex (create 7) (xorshf96 Rng.seed).1) :=
  ⟨⟨by decide, by decide, by decide⟩,
    (single_step_semantics xorshf96 Rng.seed (create 7) (by decide) (by decide)
      (by decide)).2.2.1⟩

/-- C12 (safety of the pick).  In a state with `indices.size() == n` and
`cursor < n`, for every word `r`: the modulus `n - cursor` is not zero, the
`uint32_t` expression `r % (n - cursor) + cursor` does not wrap, the index it
gives satisfies `cursor <= index < n`, and the accesses `indices[cursor]` and
`indices[index]`, reads and writes, are within the array. -/
theorem pick_safety (g : ShuffleGenerator) (r v : Nat) (hn : g.n ≤ 4294967295)
    (hlen : g.indices.length = g.n) (hc : g.current < g.n) :
    g.n - g.current ≠ 0 ∧
      r % (g.n - g.current) + g.current < wordSize ∧
      pickIndex g r = r % (g.n - g.current) + g.current ∧
      g.current ≤ pickIndex g r ∧ pickIndex g r < g.n ∧
      g.current < g.indices.length ∧ pickIndex g r < g.indices.length ∧
      pickIndex g r < (g.indices.set g.current v).length := by
  have hw : g.n < wordSize := by unfold wordSize; omega
  obtain ⟨h1, h2, h3⟩ := pickIndex_bounds g r hw hc
  refine ⟨by omega, by rw [← h1]; omega, h1, h2, h3, by omega, by omega, ?_⟩
  rw [List.length_set]
  omega

/-- Witness for C12: `ShuffleGenerator(7)` and the first word of the seeded
`xorshf96`. -/
theorem pick_safety_witness :
    ((create 7).n ≤ 4294967295 ∧ (create 7).indices.length = (create 7).n ∧
        (create 7).current < (create 7).n) ∧
      pickIndex (create 7) 1588437975 < (create 7).indices.length :=
  ⟨⟨by decide, by decide, by decide⟩,
    (pick_safety (create 7) 1588437975 0 (by decide) (by decide) (by decide)).2.2.2.2.2.2.1⟩

/-- Any number of calls keeps the invariant, never moves the cursor back and
never touches a slot below the cursor. -/
theorem getNextValueTimes_below {σ : Type} (draw : σ → Nat × σ) (n : Nat) (hn : n < wordSize) :
    ∀ (k : Nat) (g : ShuffleGenerator) (s : σ), Inv n g →
      Inv n (getNextValueTimes draw k g s).2.1 ∧
      g.current ≤ (getNextValueTimes draw k g s).2.1.current ∧
      ∀ i, i < g.current →
        (getNextValueTimes draw k g s).2.1.indices.getD i 0 = g.indices.getD i 0 := by
  intro k
  induction k with
  | zero =>
    intro g s hinv
    exact ⟨hinv, Nat.le_refl _, fun _ _ => rfl⟩
  | succ k ih =>
    intro g s hinv
    rw [getNextValueTimes_succ]
    by_cases hc : g.current < g.n
    · have hgn : g.n < wordSize := by rw [hinv.n_eq]; exact hn
      have hpb := pickIndex_bounds g (draw s).1 hgn hc
      rw [hinv.n_eq] at hpb hc
      have hinv1 := Inv_stepped g n _ hinv hn hc hpb.2.2
      have hpre := stepped_below g n _ hinv hc hpb.2.1 hpb.2.2
      rw [getNextValueFrom_stepped draw g s hgn (by rw [hinv.n_eq]; exact hc)]
      simp only []
      obtain ⟨h1, h2, h3⟩ := ih (stepped g (pickIndex g (draw s).1)) (draw s).2 hinv1
      have hcur : (stepped g (pickIndex g (draw s).1)).current = g.current + 1 := rfl
      rw [hcur] at h2
      refine ⟨h1, by omega, ?_⟩
      intro i hi
      rw [h3 i (by rw [hcur]; omega)]
      exact hpre.2 i hi
    · rw [getNextValueFrom_exhausted draw g s (by omega)]
      exact ih g s hinv

/-- The loop of `getNextValues` leaves the generator and the word source as
the same number of single calls does. -/
theorem fillValues_state {σ : Type} (draw : σ → Nat × σ) (start : Int) :
    ∀ (k : Nat) (i : Int) (values : List Nat) (g : ShuffleGenerator) (s : σ),
      (fillValues draw start k i values g s).2 = (getNextValueTimes draw k g s).2 := by
  intro k
  induction k with
  | zero => intro i values g s; rfl
  | succ k ih =>
    intro i values g s
    rw [fillValues, ih, getNextValueTimes_succ]

/-- When `getNextValues` returns, its effect on the generator and the word
source is that of some number of single calls. -/
theorem getNextValuesFrom_state {σ : Type} (draw : σ → Nat × σ) (chunkSize : Int)
    (g : ShuffleGenerator) (s : σ) (r : List Nat × ShuffleGenerator × σ)
    (h : getNextValuesFrom draw chunkSize g s = some r) :
    r.2 = (getNextValueTimes draw (batchEnd g chunkSize - batchStart g).toNat g s).2 := by
  unfold getNextValuesFrom at h
  simp only [] at h
  split at h
  · exact absurd h (by simp)
  · split at h
    · exact absurd h (by simp)
    · rw [← Option.some.inj h]
      exact fillValues_state draw _ _ _ _ g s

/-- C13 (frame of one step).  An active call of `getNextValue` on a reachable
state changes at most the slots at the cursor and at the pick, and the pick is
not below the cursor; every other slot, in particular every slot below the old
cursor, is unchanged, and so are `n` and the length of the array.  The value
returned is in the slot at the old cursor afterwards, and no later call,
however many follow, changes a slot below the cursor: a value once returned
for a position stays in its slot. -/
theorem step_frame {σ : Type} (draw : σ → Nat × σ) (s : σ) (n : Nat) (g : ShuffleGenerator)
    (k : Nat) (hn : n ≤ 4294967295) (hg : Reachable n g) (hc : g.current < g.n) :
    g.current ≤ pickIndex g (draw s).1 ∧
      (∀ i, i ≠ g.current → i ≠ pickIndex g (draw s).1 →
        (getNextValueFrom draw g s).2.1.indices.getD i 0 = g.indices.getD i 0) ∧
      (∀ i, i < g.current →
        (getNextValueFrom draw g s).2.1.indices.getD i 0 = g.indices.getD i 0) ∧
      (getNextValueFrom draw g s).2.1.n = g.n ∧
      (getNextValueFrom draw g s).2.1.indices.length = g.indices.length ∧
      (getNextValueFrom draw g s).2.1.indices.getD g.current 0 =
        (getNextValueFrom draw g s).1 ∧
      (∀ i, i < (getNextValueFrom draw g s).2.1.current →
        (getNextValueTimes draw k (getNextValueFrom draw g s).2.1
            (getNextValueFrom draw g s).2.2).2.1.indices.getD i 0 =
          (getNextValueFrom draw g s).2.1.indices.getD i 0) := by
  have hw : n < wordSize := by unfold wordSize; omega
  have hinv := Reachable_Inv n hw g hg
  have hgn : g.n < wordSize := by rw [hinv.n_eq]; exact hw
  have hpb := pickIndex_bounds g (draw s).1 hgn hc
  have hc' : g.current < n := by rw [← hinv.n_eq]; exact hc
  have hp' : pickIndex g (draw s).1 < n := by rw [← hinv.n_eq]; exact hpb.2.2
  have hinv1 := Inv_stepped g n _ hinv hw hc' hp'
  have hget := stepped_getD g n _ hinv hc' hp'
  have hpre := stepped_below g n _ hinv hc' hpb.2.1 hp'
  rw [getNextValueFrom_stepped draw g s hgn hc]
  refine ⟨hpb.2.1, ?_, hpre.2, rfl, ?_, hpre.1, ?_⟩
  · intro i h1 h2
    show (stepped g (pickIndex g (draw s).1)).indices.getD i 0 = _
    rw [hget, if_neg h2, if_neg h1]
  · show (stepped g (pickIndex g (draw s).1)).indices.length = _
    simp [stepped]
  · exact (getNextValueTimes_below draw n hw k _ _ hinv1).2.2

/-- Witness for C13: `ShuffleGenerator(7)` after three values. -/
theorem step_frame_witness :
    (7 ≤ 4294967295 ∧
        Reachable 7 (getNextValueTimes xorshf96 3 (create 7) Rng.seed).2.1 ∧
        (getNextValueTimes xorshf96 3 (create 7) Rng.seed).2.1.current <
          (getNextValueTimes xorshf96 3 (create 7) Rng.seed).2.1.n) ∧
      (getNextValueFrom xorshf96 (getNextValueTimes xorshf96 3 (create 7) Rng.seed).2.1
          (getNextValueTimes xorshf96 3 (create 7) Rng.seed).2.2).2.1.n =
        (getNextValueTimes xorshf96 3 (create 7) Rng.seed).2.1.n :=
  ⟨⟨by decide, Reachable_getNextValueTimes xorshf96 7 3 _ _ Reachable.init, by decide⟩,
    (step_frame xorshf96 _ 7 _ 0 (by decide)
      (Reachable_getNextValueTimes xorshf96 7 3 _ _ Reachable.init) (by decide)).2.2.2.1⟩

/-- C14 (state machine).  `ShuffleGenerator(n)` starts with cursor 0 and all `n`
slots unset.  In every reachable state the cursor is at most `n` and the
array has `n` slots.  A call of `getNextValue` with `cursor < n` produces a
value and moves the cursor up by exactly 1; no call of `getNextValue`, no
sequence of such calls and no returning call of `getNextValues` moves the
cursor down, and the state a batch leaves is again reachable.  Once
`cursor == n`, `getNextValue` and the loop of `getNextValues`, for every
argument and however often it runs, leave cursor, array and word source as
they are: there is no way back to a state with values left. -/
theorem state_machine_invariant {σ : Type} (draw : σ → Nat × σ) (s : σ) (n : Nat)
    (g : ShuffleGenerator) (chunkSize : Int) (k : Nat) (hn : n ≤ 4294967295)
    (hg : Reachable n g) :
    ((create n).current = 0 ∧ (create n).indices = List.replicate n dval ∧
        (create n).n = n) ∧
      (g.current ≤ n ∧ g.indices.length = n ∧ g.n = n) ∧
      (g.current < n →
        (getNextValueFrom draw g s).1 ≠ dval ∧
        (getNextValueFrom draw g s).2.1.current = g.current + 1) ∧
      g.current ≤ (getNextValueFrom draw g s).2.1.current ∧
      g.current ≤ (getNextValueTimes draw k g s).2.1.current ∧
      (∀ r, getNextValuesFrom draw chunkSize g s = some r →
        Reachable n r.2.1 ∧ g.current ≤ r.2.1.current) ∧
      (g.current = n → getNextValueFrom draw g s = (dval, g, s)) ∧
      (g.current = n → getNextValueTimes draw k g s = (List.replicate k dval, g, s)) ∧
      (g.current = n → ∀ r, getNextValuesFrom draw chunkSize g s = some r → r.2 = (g, s)) ∧
      (g.current = n → ∀ (start i : Int) (values : List Nat),
        (fillValues draw start k i values g s).2 = (g, s)) := by
  have hw : n < wordSize := by unfold wordSize; omega
  have hinv := Reachable_Inv n hw g hg
  have hgn := hinv.n_eq
  have hex : g.current = n → g.n ≤ g.current := fun h => by rw [hgn, h]
  refine ⟨⟨rfl, rfl, rfl⟩, ⟨hinv.current_le, hinv.length_eq, hgn⟩, ?_, ?_, ?_, ?_, ?_, ?_, ?_, ?_⟩
  · intro hc
    have hc' : g.current < g.n := by rw [hgn]; exact hc
    have hpb := pickIndex_bounds g (draw s).1 (by rw [hgn]; exact hw) hc'
    rw [getNextValueFrom_stepped draw g s (by rw [hgn]; exact hw) hc']
    have hlt := hinv.logical_lt (pickIndex g (draw s).1) (by rw [← hgn]; exact hpb.2.2)
    exact ⟨by unfold dval; simp only []; omega, rfl⟩
  · exact (getNextValueTimes_below draw n hw 1 g s hinv).2.1
  · exact (getNextValueTimes_below draw n hw k g s hinv).2.1
  · intro r hr
    have hst := getNextValuesFrom_state draw chunkSize g s r hr
    have h1 : r.2.1 =
        (getNextValueTimes draw (batchEnd g chunkSize - batchStart g).toNat g s).2.1 := by
      rw [← hst]
    rw [h1]
    exact ⟨Reachable_getNextValueTimes draw n _ g s hg,
      (getNextValueTimes_below draw n hw _ g s hinv).2.1⟩
  · intro h
    exact getNextValueFrom_exhausted draw g s (hex h)
  · intro h
    exact getNextValueTimes_exhausted draw g s (hex h) k
  · intro h r hr
    rw [getNextValuesFrom_state draw chunkSize g s r hr,
      getNextValueTimes_exhausted draw g s (hex h)]
  · intro h start i values
    rw [fillValues_state, getNextValueTimes_exhausted draw g s (hex h)]

/-- Witness for C14: `ShuffleGenerator(7)` after its seven values. -/
theorem state_machine_invariant_witness :
    (7 ≤ 4294967295 ∧
        Reachable 7 (getNextValueTimes xorshf96 7 (create 7) Rng.seed).2.1) ∧
      (getNextValueTimes xorshf96 7 (create 7) Rng.seed).2.1.current ≤ 7 :=
  ⟨⟨by decide, Reachable_getNextValueTimes xorshf96 7 7 _ _ Reachable.init⟩,
    (state_machine_invariant xorshf96 Rng.seed 7 _ 5 3 (by decide)
      (Reachable_getNextValueTimes xorshf96 7 7 _ _ Reachable.init)).2.1.1⟩

/-! ## Batch arithmetic -/

/-- C16 (no wrap-around for generators of `int` size).  For `n <= 2^31 - 1`,
every reachable state and `0 <= chunkSize <= 2^31 - 1`: the `uint32_t` sum
`current + chunkSize`, the conversions of `start` and `end` to `int` and the
difference `end - start` have their mathematical values; so
`0 <= size = min(chunkSize, n - cursor) <= chunkSize`, `getNextValues` is
exactly `size` calls of `getNextValue`, it returns `size` values, each below
`n` and none the sentinel, and the cursor ends at `min(cursor + chunkSize, n)`;
`chunkSize = 0` returns the empty sequence and changes nothing. -/
theorem batch_no_wrap {σ : Type} (draw : σ → Nat × σ) (s : σ) (n : Nat)
    (g : ShuffleGenerator) (chunkSize : Int) (hn : n ≤ 2147483647) (hg : Reachable n g)
    (h0 : 0 ≤ chunkSize) (h1 : chunkSize ≤ 2147483647) :
    (((g.current + toUInt32 chunkSize) % wordSize : Nat) : Int) =
        (g.current : Int) + chunkSize ∧
      batchStart g = (g.current : Int) ∧
      batchEnd g chunkSize = min ((g.current : Int) + chunkSize) (n : Int) ∧
      fitsInt32 (batchEnd g chunkSize - batchStart g) = true ∧
      batchEnd g chunkSize - batchStart g = min chunkSize ((n : Int) - (g.current : Int)) ∧
      0 ≤ batchEnd g chunkSize - batchStart g ∧
      batchEnd g chunkSize - batchStart g ≤ chunkSize ∧
      getNextValuesFrom draw chunkSize g s =
        some (getNextValueTimes draw (batchEnd g chunkSize - batchStart g).toNat g s) ∧
      (∃ r, getNextValuesFrom draw chunkSize g s = some r ∧
        (r.1.length : Int) = batchEnd g chunkSize - batchStart g ∧
        (∀ v ∈ r.1, v < n ∧ v ≠ dval) ∧
        (r.2.1.current : Int) = min ((g.current : Int) + chunkSize) (n : Int)) ∧
      (chunkSize = 0 → getNextValuesFrom draw chunkSize g s = some ([], g, s)) := by
  have hw : n < wordSize := by unfold wordSize; omega
  have hinv := Reachable_Inv n hw g hg
  have hgn := hinv.n_eq
  have hgc := hinv.current_le
  obtain ⟨hs, he⟩ := batch_bounds g chunkSize (by omega) (by omega) h0 (by omega)
  have hbatch := getNextValuesFrom_eq draw g s chunkSize (by omega) (by omega) h0 (by omega)
  have hsize : batchEnd g chunkSize - batchStart g =
      ((min chunkSize.toNat (g.n - g.current) : Nat) : Int) := by
    rw [hs, he]; push_cast; ring
  have hsizeN : (batchEnd g chunkSize - batchStart g).toNat =
      min chunkSize.toNat (g.n - g.current) := by
    rw [hsize, Int.toNat_ofNat]
  have hk : g.current + min chunkSize.toNat (g.n - g.current) ≤ n := by omega
  obtain ⟨_, h2, _, _⟩ := getNextValueTimes_spec draw n hw _ g s hinv hk
  have hnd := getNextValueTimes_nodup draw n hw _ g s hinv hk
  have hsum : (g.current + toUInt32 chunkSize) % wordSize = g.current + chunkSize.toNat := by
    rw [toUInt32_of_nonneg chunkSize h0 (by omega)]
    exact Nat.mod_eq_of_lt (by unfold wordSize; omega)
  refine ⟨by rw [hsum]; push_cast; omega, hs, by rw [he]; omega, ?_, by rw [hsize]; omega,
    by rw [hsize]; omega, by rw [hsize]; omega, by rw [hsizeN]; exact hbatch, ?_, ?_⟩
  · rw [hsize]
    unfold fitsInt32
    simp only [Bool.and_eq_true, decide_eq_true_eq]
    omega
  · refine ⟨_, hbatch, ?_, ?_, ?_⟩
    · rw [getNextValueTimes_length, hsize]
    · intro v hv
      have := hnd.2 v hv
      exact ⟨this, by unfold dval; omega⟩
    · rw [h2]
      push_cast
      omega
  · intro hz
    have hmin : min chunkSize.toNat (g.n - g.current) = 0 := by rw [hz]; simp
    rw [hbatch, hmin]
    rfl

/-- Witness for C16: `getNextValues(1000000)` on a fresh
`ShuffleGenerator(20000000)`, the sizes of the fourth demonstration. -/
theorem batch_no_wrap_witness :
    (20000000 ≤ 2147483647 ∧ Reachable 20000000 (create 20000000) ∧
        (0 : Int) ≤ 1000000 ∧ (1000000 : Int) ≤ 2147483647) ∧
      batchEnd (create 20000000) 1000000 - batchStart (create 20000000) =
        min (1000000 : Int) (((20000000 : Nat) : Int) - ((create 20000000).current : Int)) :=
  ⟨⟨by decide, Reachable.init, by decide, by decide⟩,
    (batch_no_wrap xorshf96 Rng.seed 20000000 (create 20000000) 1000000 (by decide)
      Reachable.init (by decide) (by decide)).2.2.2.2.1⟩

/-- The locals of `getNextValues` for a negative `chunkSize` on a generator of
`int` size: `chunkSize` enters the `uint32_t` sum as `chunkSize + 2^32`; the
sum does not wrap when `cursor < |chunkSize|`, and then `end = n`; it wraps
when `cursor >= |chunkSize|`, and then `end = cursor + chunkSize`. -/
theorem batch_bounds_negative (g : ShuffleGenerator) (chunkSize : Int)
    (hn : g.n ≤ 2147483647) (hc : g.current ≤ g.n) (hlo : -2147483648 ≤ chunkSize)
    (hneg : chunkSize < 0) :
    toUInt32 chunkSize = (chunkSize + 4294967296).toNat ∧
      batchStart g = (g.current : Int) ∧
      ((g.current : Int) < -chunkSize → batchEnd g chunkSize = (g.n : Int)) ∧
      (-chunkSize ≤ (g.current : Int) →
        batchEnd g chunkSize = (g.current : Int) + chunkSize) := by
  have hu : toUInt32 chunkSize = (chunkSize + 4294967296).toNat := by
    unfold toUInt32
    omega
  refine ⟨hu, toInt32_of_lt _ (by omega), ?_, ?_⟩
  · intro h
    unfold batchEnd
    rw [hu]
    have hsum : (g.current + (chunkSize + 4294967296).toNat) % wordSize =
        g.current + (chunkSize + 4294967296).toNat :=
      Nat.mod_eq_of_lt (by unfold wordSize; omega)
    have hmin : min (g.current + (chunkSize + 4294967296).toNat) g.n = g.n := by omega
    rw [hsum, hmin, toInt32_of_lt _ (by omega)]
  · intro h
    unfold batchEnd
    rw [hu]
    have hsum : (g.current + (chunkSize + 4294967296).toNat) % wordSize =
        ((g.current : Int) + chunkSize).toNat := by
      unfold wordSize
      omega
    have hmin : min ((g.current : Int) + chunkSize).toNat g.n =
        ((g.current : Int) + chunkSize).toNat := by omega
    rw [hsum, hmin, toInt32_of_lt _ (by omega)]
    omega

/-- When `start` and `end` are the natural numbers `c <= e` and `e - c` fits
`int`, `getNextValues` is `e - c` calls of `getNextValue`. -/
theorem getNextValuesFrom_of_bounds {σ : Type} (draw : σ → Nat × σ) (g : ShuffleGenerator)
    (s : σ) (chunkSize : Int) (c e : Nat) (hs : batchStart g = (c : Int))
    (he : batchEnd g chunkSize = (e : Int)) (hce : c ≤ e) (hfit : e - c ≤ 2147483647) :
    getNextValuesFrom draw chunkSize g s = some (getNextValueTimes draw (e - c) g s) := by
  have hsize : batchEnd g chunkSize - batchStart g = ((e - c : Nat) : Int) := by
    rw [hs, he]; omega
  have hfits : fitsInt32 ((e - c : Nat) : Int) = true := by
    unfold fitsInt32
    simp only [Bool.and_eq_true, decide_eq_true_eq]
    omega
  unfold getNextValuesFrom
  simp only [hsize, hfits, Int.toNat_ofNat]
  rw [if_neg (by simp), if_neg (by omega)]
  have hfill := fillValues_eq draw (batchStart g) (e - c) 0 (List.replicate (e - c) 0) g s
    (by simp)
  simp only [Nat.cast_zero, add_zero, List.take_zero, List.nil_append, zero_add] at hfill
  rw [hfill]
  simp [List.drop_eq_nil_of_le]

/-- C17 (negative `chunkSize`).  For `1 <= n <= 2^31 - 1`, every reachable
state and every negative `int` `chunkSize`, which enters the `uint32_t` sum
as `chunkSize + 2^32`: when `cursor < |chunkSize|`, `getNextValues` returns
all the `n - cursor` remaining values and leaves the cursor at `n`; when
`cursor >= |chunkSize|`, the length computed for the result vector is
`size = chunkSize < 0`, the loop condition `start < end` fails at once, no
sequence is returned and no call of `getNextValue` is made. -/
theorem negative_chunk {σ : Type} (draw : σ → Nat × σ) (s : σ) (n : Nat)
    (g : ShuffleGenerator) (chunkSize : Int) (hn1 : 1 ≤ n) (hn : n ≤ 2147483647)
    (hg : Reachable n g) (hlo : -2147483648 ≤ chunkSize) (hneg : chunkSize < 0) :
    toUInt32 chunkSize = (chunkSize + 4294967296).toNat ∧
      ((g.current : Int) < -chunkSize →
        getNextValuesFrom draw chunkSize g s =
          some (getNextValueTimes draw (n - g.current) g s) ∧
        (getNextValueTimes draw (n - g.current) g s).1.length = n - g.current ∧
        (∀ v ∈ (getNextValueTimes draw (n - g.current) g s).1, v < n) ∧
        (getNextValueTimes draw (n - g.current) g s).2.1.current = n) ∧
      (-chunkSize ≤ (g.current : Int) →
        batchEnd g chunkSize - batchStart g = chunkSize ∧
        batchEnd g chunkSize < batchStart g ∧
        getNextValuesFrom draw chunkSize g s = none) := by
  have hw : n < wordSize := by unfold wordSize; omega
  have hinv := Reachable_Inv n hw g hg
  have hgn := hinv.n_eq
  have hgc := hinv.current_le
  obtain ⟨hu, hs, he1, he2⟩ :=
    batch_bounds_negative g chunkSize (by omega) (by omega) hlo hneg
  refine ⟨hu, ?_, ?_⟩
  · intro h
    have hk : g.current + (n - g.current) ≤ n := by omega
    obtain ⟨_, h2, _, _⟩ := getNextValueTimes_spec draw n hw _ g s hinv hk
    have hnd := getNextValueTimes_nodup draw n hw _ g s hinv hk
    have hb := getNextValuesFrom_of_bounds draw g s chunkSize g.current g.n hs (he1 h)
      (by omega) (by omega)
    rw [hgn] at hb
    exact ⟨hb, getNextValueTimes_length draw _ g s, hnd.2, by rw [h2]; omega⟩
  · intro h
    have hsz : batchEnd g chunkSize - batchStart g = chunkSize := by
      rw [hs, he2 h]; omega
    refine ⟨hsz, by omega, ?_⟩
    unfold getNextValuesFrom
    simp only [hsz]
    have hfit : fitsInt32 chunkSize = true := by
      unfold fitsInt32
      simp only [Bool.and_eq_true, decide_eq_true_eq]
      omega
    rw [if_neg (by rw [hfit]; simp), if_pos hneg]

/-- Witness for C17: `getNextValues(-1)` on a fresh `ShuffleGenerator(5)`
returns all five values. -/
theorem negative_chunk_witness :
    (1 ≤ 5 ∧ 5 ≤ 2147483647 ∧ Reachable 5 (create 5) ∧ (-2147483648 : Int) ≤ -1 ∧
        (-1 : Int) < 0) ∧
      getNextValuesFrom xorshf96 (-1) (create 5) Rng.seed =
        some (getNextValueTimes xorshf96 (5 - (create 5).current) (create 5) Rng.seed) :=
  ⟨⟨by decide, by decide, Reachable.init, by decide, by decide⟩,
    ((negative_chunk xorshf96 Rng.seed 5 (create 5) (-1) (by decide) (by decide)
      Reachable.init (by decide) (by decide)).2.1 (by decide)).1⟩

/-! ## Modulo bias of the pick -/

/-- In an active state the pick is `cursor + j` exactly for the words `r` with
`r mod (n - cursor) = j`. -/
theorem pickIndex_eq_iff (g : ShuffleGenerator) (r j : Nat) (hn : g.n ≤ 4294967295)
    (hc : g.current < g.n) :
    pickIndex g r = g.current + j ↔ r % (g.n - g.current) = j := by
  have hpb := pickIndex_bounds g r (by unfold wordSize; omega) hc
  rw [hpb.1]
  omega

/-- The number of words that pick `cursor + j`. -/
theorem pickCount_eq (g : ShuffleGenerator) (j : Nat) (hn : g.n ≤ 4294967295)
    (hc : g.current < g.n) (hj : j < g.n - g.current) :
    pickCount g (g.current + j) =
      wordSize / (g.n - g.current) +
        if j < wordSize % (g.n - g.current) then 1 else 0 := by
  have hm : 0 < g.n - g.current := by omega
  have h := @Nat.count_modEq_card wordSize (g.n - g.current) hm j
  rw [Nat.mod_eq_of_lt hj] at h
  have hL : pickCount g (g.current + j) =
      (Finset.filter (fun r => pickIndex g r = g.current + j) (Finset.range wordSize)).card :=
    Nat.count_eq_card_filter_range (fun r => pickIndex g r = g.current + j) wordSize
  have hmid : Finset.filter (fun r => pickIndex g r = g.current + j) (Finset.range wordSize) =
      Finset.filter (fun r => r ≡ j [MOD g.n - g.current]) (Finset.range wordSize) := by
    apply Finset.filter_congr
    intro r _
    rw [pickIndex_eq_iff g r j hn hc]
    unfold Nat.ModEq
    rw [Nat.mod_eq_of_lt hj]
  rw [Nat.count_eq_card_filter_range (fun r => r ≡ j [MOD g.n - g.current]) wordSize] at h
  rw [hL, hmid]
  exact h

theorem wordSize_eq : wordSize = 2 ^ 32 := by decide

/-- C15 (modulo bias of the pick).  In an active state, with `m = n - cursor`,
a word `r` picks `cursor + j` exactly when `r mod m = j`, and the number of
`uint32_t` words that do so is `2^32 / m`, plus one when `j < 2^32 mod m`.
These numbers are the same for all `j` in `[0, m)` exactly when `m` divides
`2^32`, that is when `m` is a power of two; otherwise the picks
`j < 2^32 mod m`, of which there is at least one, have exactly one more word
than the picks `j >= 2^32 mod m`, of which there is at least one as well. -/
theorem modulo_bias (g : ShuffleGenerator) (j : Nat) (hn : g.n ≤ 4294967295)
    (hc : g.current < g.n) (hj : j < g.n - g.current) :
    wordSize = 2 ^ 32 ∧
      (∀ r, pickIndex g r = g.current + j ↔ r % (g.n - g.current) = j) ∧
      pickCount g (g.current + j) =
        wordSize / (g.n - g.current) +
          (if j < wordSize % (g.n - g.current) then 1 else 0) ∧
      ((∀ i i', i < g.n - g.current → i' < g.n - g.current →
          pickCount g (g.current + i) = pickCount g (g.current + i')) ↔
        (g.n - g.current) ∣ wordSize) ∧
      ((g.n - g.current) ∣ wordSize ↔ ∃ k, k ≤ 32 ∧ g.n - g.current = 2 ^ k) ∧
      (¬ (g.n - g.current) ∣ wordSize →
        0 < wordSize % (g.n - g.current) ∧
        wordSize % (g.n - g.current) < g.n - g.current ∧
        (∀ i, i < wordSize % (g.n - g.current) →
          pickCount g (g.current + i) = wordSize / (g.n - g.current) + 1) ∧
        (∀ i, wordSize % (g.n - g.current) ≤ i → i < g.n - g.current →
          pickCount g (g.current + i) = wordSize / (g.n - g.current))) := by
  have hm : 0 < g.n - g.current := by omega
  have hmod := Nat.mod_lt wordSize hm
  have hhigh : ∀ i, i < wordSize % (g.n - g.current) →
      pickCount g (g.current + i) = wordSize / (g.n - g.current) + 1 := by
    intro i hi
    rw [pickCount_eq g i hn hc (by omega), if_pos hi]
  have hlow : ∀ i, wordSize % (g.n - g.current) ≤ i → i < g.n - g.current →
      pickCount g (g.current + i) = wordSize / (g.n - g.current) := by
    intro i hi hi'
    rw [pickCount_eq g i hn hc hi', if_neg (by omega)]
    rfl
  have hpos : ¬ (g.n - g.current) ∣ wordSize → 0 < wordSize % (g.n - g.current) := by
    intro hnd
    apply Nat.pos_of_ne_zero
    intro h0
    exact hnd (Nat.dvd_of_mod_eq_zero h0)
  refine ⟨wordSize_eq, fun r => pickIndex_eq_iff g r j hn hc, pickCount_eq g j hn hc hj,
    ?_, ?_, fun hnd => ⟨hpos hnd, hmod, hhigh, hlow⟩⟩
  · constructor
    · intro huni
      by_contra hnd
      have h0 := hhigh 0 (hpos hnd)
      have h1 := hlow (g.n - g.current - 1) (by omega) (by omega)
      have := huni 0 (g.n - g.current - 1) hm (by omega)
      rw [h0, h1] at this
      omega
    · intro hd i i' hi hi'
      have h0 : wordSize % (g.n - g.current) = 0 := Nat.mod_eq_zero_of_dvd hd
      rw [hlow i (by omega) hi, hlow i' (by omega) hi']
  · rw [wordSize_eq]
    exact Nat.dvd_prime_pow Nat.prime_two

/-- Witness for C15: `ShuffleGenerator(7)` fresh, `m = 7`, pick `3`. -/
theorem modulo_bias_witness :
    ((create 7).n ≤ 4294967295 ∧ (create 7).current < (create 7).n ∧
        3 < (create 7).n - (create 7).current) ∧
      pickCount (create 7) ((create 7).current + 3) =
        wordSize / ((create 7).n - (create 7).current) +
          (if 3 < wordSize % ((create 7).n - (create 7).current) then 1 else 0) :=
  ⟨⟨by decide, by decide, by decide⟩,
    (modulo_bias (create 7) 3 (by decide) (by decide) (by decide)).2.2.1⟩

/-! ## The register transition of `xorshf96` -/

theorem shiftXorRight_twice (a x : Nat) :
    shiftXorRight a (shiftXorRight a x) = shiftXorRight (a + a) x := by
  apply Nat.eq_of_testBit_eq
  intro i
  simp only [shiftXorRight, Nat.testBit_xor, Nat.testBit_shiftRight]
  rw [show a + a + i = a + (a + i) by omega]
  cases x.testBit i <;> cases x.testBit (a + i) <;> cases x.testBit (a + (a + i)) <;> rfl

theorem shiftXorLeft_twice (a x : Nat) :
    shiftXorLeft a (shiftXorLeft a x) = shiftXorLeft (a + a) x := by
  apply Nat.eq_of_testBit_eq
  intro i
  simp only [shiftXorLeft, wordSize_eq, Nat.testBit_xor, Nat.testBit_mod_two_pow,
    Nat.testBit_shiftLeft]
  by_cases h1 : i < 32 <;> by_cases h2 : a ≤ i <;> by_cases h3 : a + a ≤ i
  all_goals simp [h1, h2, h3]
  · have e1 : i - a < 32 := by omega
    have e2 : a ≤ i - a := by omega
    simp [e1, e2, Nat.sub_sub]
  · have e2 : ¬ a ≤ i - a := by omega
    simp [e2]
  · omega

theorem shiftXorLeft_lt (a x : Nat) (h : x < wordSize) : shiftXorLeft a x < wordSize := by
  rw [wordSize_eq] at h ⊢
  exact Nat.xor_lt_two_pow h (Nat.mod_lt _ (by decide))

theorem shiftXorRight_lt (a x : Nat) (h : x < wordSize) : shiftXorRight a x < wordSize := by
  rw [wordSize_eq] at h ⊢
  refine Nat.xor_lt_two_pow h (lt_of_le_of_lt ?_ h)
  rw [Nat.shiftRight_eq_div_pow]
  exact Nat.div_le_self _ _

theorem shiftXorLeft_32 (x : Nat) : shiftXorLeft 32 x = x := by
  have : (x <<< 32) % wordSize = 0 := by
    rw [Nat.shiftLeft_eq, wordSize_eq]
    exact Nat.mul_mod_left _ _
  rw [shiftXorLeft, this, Nat.xor_zero]

theorem shiftXorRight_40 (x : Nat) (h : x < wordSize) : shiftXorRight 40 x = x := by
  have : x >>> 40 = 0 := by
    rw [Nat.shiftRight_eq_div_pow]
    apply Nat.div_eq_of_lt
    unfold wordSize at h
    have : (2 : Nat) ^ 40 = 1099511627776 := by norm_num
    omega
  rw [shiftXorRight, this, Nat.xor_zero]

/-- The statement `x ^= x << 16` undoes itself. -/
theorem shiftXorLeft_16_invol (x : Nat) : shiftXorLeft 16 (shiftXorLeft 16 x) = x := by
  have h := shiftXorLeft_twice 16 x
  rw [show 16 + 16 = 32 from rfl, shiftXorLeft_32] at h
  exact h

/-- The statement `x ^= x << 1` is undone by `x ^= x << 1, 2, 4, 8, 16`. -/
theorem shiftXorLeft_1_right_inv (x : Nat) :
    shiftXorLeft 1
      (shiftXorLeft 1 (shiftXorLeft 2 (shiftXorLeft 4 (shiftXorLeft 8 (shiftXorLeft 16 x))))) =
      x := by
  have h1 : ∀ y, shiftXorLeft 1 (shiftXorLeft 1 y) = shiftXorLeft 2 y :=
    fun y => shiftXorLeft_twice 1 y
  have h2 : ∀ y, shiftXorLeft 2 (shiftXorLeft 2 y) = shiftXorLeft 4 y :=
    fun y => shiftXorLeft_twice 2 y
  have h4 : ∀ y, shiftXorLeft 4 (shiftXorLeft 4 y) = shiftXorLeft 8 y :=
    fun y => shiftXorLeft_twice 4 y
  have h8 : ∀ y, shiftXorLeft 8 (shiftXorLeft 8 y) = shiftXorLeft 16 y :=
    fun y => shiftXorLeft_twice 8 y
  rw [h1, h2, h4, h8, shiftXorLeft_16_invol]

/-- The statement `x ^= x << 1` is injective. -/
theorem shiftXorLeft_1_inj (x y : Nat) (h : shiftXorLeft 1 x = shiftXorLeft 1 y) : x = y := by
  have h2 : shiftXorLeft 2 x = shiftXorLeft 2 y := by
    have := congrArg (shiftXorLeft 1) h
    rwa [shiftXorLeft_twice 1 x, shiftXorLeft_twice 1 y] at this
  have h4 : shiftXorLeft 4 x = shiftXorLeft 4 y := by
    have := congrArg (shiftXorLeft 2) h2
    rwa [shiftXorLeft_twice 2 x, shiftXorLeft_twice 2 y] at this
  have h8 : shiftXorLeft 8 x = shiftXorLeft 8 y := by
    have := congrArg (shiftXorLeft 4) h4
    rwa [shiftXorLeft_twice 4 x, shiftXorLeft_twice 4 y] at this
  have h16 : shiftXorLeft 16 x = shiftXorLeft 16 y := by
    have := congrArg (shiftXorLeft 8) h8
    rwa [shiftXorLeft_twice 8 x, shiftXorLeft_twice 8 y] at this
  have := congrArg (shiftXorLeft 16) h16
  rwa [shiftXorLeft_16_invol, shiftXorLeft_16_invol] at this

/-- The statement `x ^= x >> 5` is undone by `x ^= x >> 5, 10, 20`. -/
theorem shiftXorRight_5_right_inv (x : Nat) (h : x < wordSize) :
    shiftXorRight 5 (shiftXorRight 5 (shiftXorRight 10 (shiftXorRight 20 x))) = x := by
  have h5 : ∀ y, shiftXorRight 5 (shiftXorRight 5 y) = shiftXorRight 10 y :=
    fun y => shiftXorRight_twice 5 y
  have h10 : ∀ y, shiftXorRight 10 (shiftXorRight 10 y) = shiftXorRight 20 y :=
    fun y => shiftXorRight_twice 10 y
  have h20 : ∀ y, shiftXorRight 20 (shiftXorRight 20 y) = shiftXorRight 40 y :=
    fun y => shiftXorRight_twice 20 y
  rw [h5, h10, h20, shiftXorRight_40 x h]

/-- The statement `x ^= x >> 5` is injective on `uint32_t`. -/
theorem shiftXorRight_5_inj (x y : Nat) (hx : x < wordSize) (hy : y < wordSize)
    (h : shiftXorRight 5 x = shiftXorRight 5 y) : x = y := by
  have h10 : shiftXorRight 10 x = shiftXorRight 10 y := by
    have := congrArg (shiftXorRight 5) h
    rwa [shiftXorRight_twice 5 x, shiftXorRight_twice 5 y] at this
  have h20 : shiftXorRight 20 x = shiftXorRight 20 y := by
    have := congrArg (shiftXorRight 10) h10
    rwa [shiftXorRight_twice 10 x, shiftXorRight_twice 10 y] at this
  have := congrArg (shiftXorRight 20) h20
  rwa [shiftXorRight_twice 20 x, shiftXorRight_twice 20 y, show 20 + 20 = 40 from rfl,
    shiftXorRight_40 x hx, shiftXorRight_40 y hy] at this

/-- The registers after a call, in terms of the three shift-xor statements. -/
theorem Rng.next_eq (s : Rng) :
    s.next =
      ⟨s.y, s.z, shiftXorLeft 1 (shiftXorRight 5 (shiftXorLeft 16 s.x)) ^^^ s.y ^^^ s.z⟩ := rfl

theorem xor_lt_wordSize (a b : Nat) (ha : a < wordSize) (hb : b < wordSize) :
    a ^^^ b < wordSize := by
  rw [wordSize_eq] at ha hb ⊢
  exact Nat.xor_lt_two_pow ha hb

theorem Rng.next_valid (s : Rng) (h : s.Valid) : s.next.Valid := by
  obtain ⟨hx, hy, hz⟩ := h
  refine ⟨hy, hz, ?_⟩
  rw [Rng.next_eq]
  exact xor_lt_wordSize _ _ (xor_lt_wordSize _ _
    (shiftXorLeft_lt _ _ (shiftXorRight_lt _ _ (shiftXorLeft_lt _ _ hx))) hy) hz

theorem Rng.prev_valid (s : Rng) (h : s.Valid) : s.prev.Valid := by
  obtain ⟨hx, hy, hz⟩ := h
  refine ⟨?_, hx, hy⟩
  unfold Rng.prev
  simp only []
  have ht := xor_lt_wordSize _ _ (xor_lt_wordSize _ _ hz hx) hy
  exact shiftXorLeft_lt _ _ (shiftXorRight_lt _ _ (shiftXorRight_lt _ _ (shiftXorRight_lt _ _
    (shiftXorLeft_lt _ _ (shiftXorLeft_lt _ _ (shiftXorLeft_lt _ _ (shiftXorLeft_lt _ _
      (shiftXorLeft_lt _ _ ht))))))))

theorem xor_xor_cancel (t a b : Nat) : t ^^^ a ^^^ b ^^^ a ^^^ b = t := by
  apply Nat.eq_of_testBit_eq
  intro i
  simp only [Nat.testBit_xor]
  cases t.testBit i <;> cases a.testBit i <;> cases b.testBit i <;> rfl

/-- The map `Rng.prev` undoes a call on registers that hold `uint32_t` words. -/
theorem Rng.next_prev (s : Rng) (h : s.Valid) : s.prev.next = s := by
  obtain ⟨hx, hy, hz⟩ := h
  have ht := xor_lt_wordSize _ _ (xor_lt_wordSize _ _ hz hx) hy
  have hu := shiftXorLeft_lt 1 _ (shiftXorLeft_lt 2 _ (shiftXorLeft_lt 4 _
    (shiftXorLeft_lt 8 _ (shiftXorLeft_lt 16 _ ht))))
  rw [Rng.next_eq]
  unfold Rng.prev
  simp only []
  rw [shiftXorLeft_16_invol, shiftXorRight_5_right_inv _ hu, shiftXorLeft_1_right_inv,
    xor_xor_cancel]

/-- A call is injective on registers that hold `uint32_t` words. -/
theorem Rng.next_inj (a b : Rng) (ha : a.Valid) (hb : b.Valid) (h : a.next = b.next) :
    a = b := by
  rw [Rng.next_eq, Rng.next_eq] at h
  obtain ⟨hy, hz, ht⟩ := Rng.mk.inj h
  rw [hy, hz] at ht
  have ht' := Nat.xor_left_inj.mp (Nat.xor_left_inj.mp ht)
  have hx : a.x = b.x := by
    have h1 := shiftXorLeft_1_inj _ _ ht'
    have h2 := shiftXorRight_5_inj _ _ (shiftXorLeft_lt _ _ ha.1) (shiftXorLeft_lt _ _ hb.1) h1
    have h3 := congrArg (shiftXorLeft 16) h2
    rwa [shiftXorLeft_16_invol, shiftXorLeft_16_invol] at h3
  cases a
  cases b
  simp only at hx hy hz
  rw [hx, hy, hz]

/-- The register transition is a bijection of the `uint32_t` register
triples. -/
theorem Rng.next_bijOn : Set.BijOn Rng.next {s | s.Valid} {s | s.Valid} := by
  refine ⟨fun s hs => Rng.next_valid s hs, fun a ha b hb h => Rng.next_inj a b ha hb h, ?_⟩
  intro s hs
  exact ⟨s.prev, Rng.prev_valid s hs, Rng.next_prev s hs⟩

/-- The zero registers are not reached from other registers, however many
calls are made. -/
theorem Rng.iterate_ne_zero (k : Nat) :
    ∀ s : Rng, s.Valid → s ≠ Rng.zero → Rng.next^[k] s ≠ Rng.zero := by
  have hz : Rng.zero.Valid := ⟨by decide, by decide, by decide⟩
  induction k with
  | zero => intro s _ h; exact h
  | succ k ih =>
    intro s hs h
    rw [Function.iterate_succ_apply]
    apply ih _ (Rng.next_valid s hs)
    intro h0
    have hfix : Rng.zero.next = Rng.zero := by decide
    exact h (Rng.next_inj s Rng.zero hs hz (h0.trans hfix.symm))

theorem shiftXorLeft_16_bijOn :
    Set.BijOn (shiftXorLeft 16) {x | x < wordSize} {x | x < wordSize} := by
  refine ⟨fun x hx => shiftXorLeft_lt 16 x hx, ?_, ?_⟩
  · intro x _ y _ h
    have := congrArg (shiftXorLeft 16) h
    rwa [shiftXorLeft_16_invol, shiftXorLeft_16_invol] at this
  · intro y hy
    exact ⟨shiftXorLeft 16 y, shiftXorLeft_lt 16 y hy, shiftXorLeft_16_invol y⟩

theorem shiftXorRight_5_bijOn :
    Set.BijOn (shiftXorRight 5) {x | x < wordSize} {x | x < wordSize} := by
  refine ⟨fun x hx => shiftXorRight_lt 5 x hx, ?_, ?_⟩
  · intro x hx y hy h
    exact shiftXorRight_5_inj x y hx hy h
  · intro y hy
    exact ⟨shiftXorRight 5 (shiftXorRight 10 (shiftXorRight 20 y)),
      shiftXorRight_lt _ _ (shiftXorRight_lt _ _ (shiftXorRight_lt _ _ hy)),
      shiftXorRight_5_right_inv y hy⟩

theorem shiftXorLeft_1_bijOn :
    Set.BijOn (shiftXorLeft 1) {x | x < wordSize} {x | x < wordSize} := by
  refine ⟨fun x hx => shiftXorLeft_lt 1 x hx, ?_, ?_⟩
  · intro x _ y _ h
    exact shiftXorLeft_1_inj x y h
  · intro y hy
    exact ⟨shiftXorLeft 1 (shiftXorLeft 2 (shiftXorLeft 4 (shiftXorLeft 8 (shiftXorLeft 16 y)))),
      shiftXorLeft_lt _ _ (shiftXorLeft_lt _ _ (shiftXorLeft_lt _ _ (shiftXorLeft_lt _ _
        (shiftXorLeft_lt _ _ hy)))),
      shiftXorLeft_1_right_inv y⟩

/-- The rotation `(t, y, z) -> (y, z, t ^ y ^ z)` is a bijection of the
`uint32_t` triples. -/
theorem rotate_bijOn :
    Set.BijOn (fun p : Nat × Nat × Nat => (p.2.1, p.2.2, p.1 ^^^ p.2.1 ^^^ p.2.2))
      {p | p.1 < wordSize ∧ p.2.1 < wordSize ∧ p.2.2 < wordSize}
      {p | p.1 < wordSize ∧ p.2.1 < wordSize ∧ p.2.2 < wordSize} := by
  refine ⟨?_, ?_, ?_⟩
  · rintro ⟨t, y, z⟩ ⟨ht, hy, hz⟩
    exact ⟨hy, hz, xor_lt_wordSize _ _ (xor_lt_wordSize _ _ ht hy) hz⟩
  · rintro ⟨t, y, z⟩ _ ⟨t', y', z'⟩ _ h
    simp only [Prod.mk.injEq] at h
    obtain ⟨hy, hz, ht⟩ := h
    subst hy hz
    have := Nat.xor_left_inj.mp (Nat.xor_left_inj.mp ht)
    rw [this]
  · rintro ⟨a, b, c⟩ ⟨ha, hb, hc⟩
    refine ⟨(c ^^^ a ^^^ b, a, b), ⟨xor_lt_wordSize _ _ (xor_lt_wordSize _ _ hc ha) hb, ha, hb⟩,
      ?_⟩
    simp only [xor_xor_cancel]

/-- C18 (the register transition is a bijection).  On triples `(x, y, z)` of
`uint32_t` words the transition of `xorshf96` is a bijection: each of the
statements `x ^= x << 16`, `x ^= x >> 5`, `x ^= x << 1` is a bijection of the
`uint32_t` words, and so is the rotation `(t, y, z) -> (y, z, t ^ y ^ z)` of
the triples, of which the transition is composed.  The zero registers are a
fixed point, and no other registers reach them however many calls are made,
in particular not the seed `(123456789, 362436069, 521288629)`.  The word
returned is the new `z`. -/
theorem xorshf96_transition_bijective :
    Set.BijOn Rng.next {s | s.Valid} {s | s.Valid} ∧
      Set.BijOn (shiftXorLeft 16) {x | x < wordSize} {x | x < wordSize} ∧
      Set.BijOn (shiftXorRight 5) {x | x < wordSize} {x | x < wordSize} ∧
      Set.BijOn (shiftXorLeft 1) {x | x < wordSize} {x | x < wordSize} ∧
      Set.BijOn (fun p : Nat × Nat × Nat => (p.2.1, p.2.2, p.1 ^^^ p.2.1 ^^^ p.2.2))
        {p | p.1 < wordSize ∧ p.2.1 < wordSize ∧ p.2.2 < wordSize}
        {p | p.1 < wordSize ∧ p.2.1 < wordSize ∧ p.2.2 < wordSize} ∧
      (∀ s : Rng, (xorshf96 s).2 = s.next ∧
        s.next = ⟨s.y, s.z,
          shiftXorLeft 1 (shiftXorRight 5 (shiftXorLeft 16 s.x)) ^^^ s.y ^^^ s.z⟩) ∧
      Rng.zero.next = Rng.zero ∧
      (∀ (s : Rng) (k : Nat), s.Valid → s ≠ Rng.zero → Rng.next^[k] s ≠ Rng.zero) ∧
      Rng.seed = ⟨123456789, 362436069, 521288629⟩ ∧
      Rng.seed.Valid ∧
      (∀ k : Nat, Rng.next^[k] Rng.seed ≠ Rng.zero) ∧
      (∀ s : Rng, (xorshf96 s).1 = (xorshf96 s).2.z) := by
  have hseed : Rng.seed.Valid := ⟨by decide, by decide, by decide⟩
  refine ⟨Rng.next_bijOn, shiftXorLeft_16_bijOn, shiftXorRight_5_bijOn, shiftXorLeft_1_bijOn,
    rotate_bijOn, fun s => ⟨rfl, Rng.next_eq s⟩, by decide,
    fun s k hs h => Rng.iterate_ne_zero k s hs h, rfl, hseed,
    fun k => Rng.iterate_ne_zero k Rng.seed hseed (by decide), fun _ => rfl⟩
